import Mathlib

/-!
Verification of scripts/update_homepage.py.

The script is embedded shallowly: Python strings become Lean lists of
characters, and each Python helper (html.escape, textwrap.dedent, str.strip,
str.splitlines, str.split, nav_item, indent_block, build_navigation_markup,
the regex search in update_homepage, discover_projects and main) becomes an
executable Lean definition translated from its source.  Theorems at the end
settle the frozen claims about the script.
-/

namespace UpdateHomepage

/-- Characters matched by the regex class [ \t] used by textwrap.dedent and by
the marker-locating regex in update_homepage. -/
def isSpaceTab (c : Char) : Bool := c = ' ' || c = '\t'

/-- Line-boundary characters recognised by Python str.splitlines. -/
def isBreakChar (c : Char) : Bool :=
  c = '\n' || c = '\r' || c = '\x0B' || c = '\x0C' ||
  c = '\x1C' || c = '\x1D' || c = '\x1E' || c = '\x85' ||
  c = '\u2028' || c = '\u2029'

/-- Whitespace characters removed by Python str.strip (the ASCII and Latin-1
part of the Unicode whitespace set; the characters that str.strip actually
touches in this program are all ASCII template characters). -/
def isStripChar (c : Char) : Bool :=
  c = ' ' || c = '\t' || c = '\n' || c = '\r' || c = '\x0B' || c = '\x0C' ||
  c = '\x1C' || c = '\x1D' || c = '\x1E' || c = '\x1F' || c = '\x85' ||
  c = '\xA0' || c = '\u2028' || c = '\u2029'

/-- Decide whether the pattern is a prefix of the string (str.startswith). -/
def leadsWith : List Char → List Char → Bool
  | [], _ => true
  | _ :: _, [] => false
  | p :: ps, s :: ss => p = s && leadsWith ps ss

/-- Decide whether the pattern occurs as a contiguous substring (Python in). -/
def hasSub (pat : List Char) : List Char → Bool
  | [] => leadsWith pat []
  | s@(_ :: rest) => leadsWith pat s || hasSub pat rest

/-- Proposition form of substring occurrence. -/
def SubStr (x s : List Char) : Prop := ∃ a b, s = a ++ x ++ b

/-- Replacement of every occurrence of a single character, the special case of
Python str.replace used by html.escape (all its patterns are one character). -/
def replace1 (c : Char) (sub : List Char) : List Char → List Char
  | [] => []
  | x :: xs => if x = c then sub ++ replace1 c sub xs else x :: replace1 c sub xs

/-- Model of html.escape with quote=True: the same chain of single-character
replacements, applied in the same order as the library source. -/
def escape (s : List Char) : List Char :=
  replace1 '\x27' ("&#x27;".data)
    (replace1 '"' ("&quot;".data)
      (replace1 '>' ("&gt;".data)
        (replace1 '<' ("&lt;".data)
          (replace1 '&' ("&amp;".data) s))))

/-- Per-character view of html.escape, used to state escaping properties. -/
def escChar (c : Char) : List Char :=
  if c = '&' then ("&amp;".data)
  else if c = '<' then ("&lt;".data)
  else if c = '>' then ("&gt;".data)
  else if c = '"' then ("&quot;".data)
  else if c = '\x27' then ("&#x27;".data)
  else [c]

/-- Expansion of a string character by character through escChar. -/
def escMap (s : List Char) : List Char := s.foldr (fun c acc => escChar c ++ acc) []

lemma replace1_append (c : Char) (sub a b : List Char) :
    replace1 c sub (a ++ b) = replace1 c sub a ++ replace1 c sub b := by
  induction a with
  | nil => rfl
  | cons x xs ih =>
      by_cases h : x = c <;> simp [replace1, h, ih]

lemma escape_append (a b : List Char) :
    escape (a ++ b) = escape a ++ escape b := by
  simp [escape, replace1_append]

lemma escape_single (c : Char) : escape [c] = escChar c := by
  by_cases h1 : c = '&'
  · subst h1; decide
  by_cases h2 : c = '<'
  · subst h2; decide
  by_cases h3 : c = '>'
  · subst h3; decide
  by_cases h4 : c = '"'
  · subst h4; decide
  by_cases h5 : c = '\x27'
  · subst h5; decide
  simp [escape, replace1, escChar, h1, h2, h3, h4, h5]

lemma escape_eq_escMap (s : List Char) : escape s = escMap s := by
  induction s with
  | nil => rfl
  | cons c cs ih =>
      have h : (c :: cs) = [c] ++ cs := rfl
      rw [h, escape_append, escape_single, ih]; rfl

/-- Characters appearing in the five entity replacement strings. -/
def entityChars : List Char :=
  ['&', 'a', 'm', 'p', ';', 'l', 't', 'g', 'q', 'u', 'o', '#', 'x', '2', '7']

lemma mem_escChar {x c : Char} (h : x ∈ escChar c) :
    x = c ∨ x ∈ entityChars := by
  by_cases h1 : c = '&'
  · subst h1
    have e : escChar '&' = ['&', 'a', 'm', 'p', ';'] := by decide
    rw [e] at h; right
    simp only [List.mem_cons, List.not_mem_nil, or_false] at h
    simp only [entityChars, List.mem_cons, List.not_mem_nil, or_false]
    tauto
  by_cases h2 : c = '<'
  · subst h2
    have e : escChar '<' = ['&', 'l', 't', ';'] := by decide
    rw [e] at h; right
    simp only [List.mem_cons, List.not_mem_nil, or_false] at h
    simp only [entityChars, List.mem_cons, List.not_mem_nil, or_false]
    tauto
  by_cases h3 : c = '>'
  · subst h3
    have e : escChar '>' = ['&', 'g', 't', ';'] := by decide
    rw [e] at h; right
    simp only [List.mem_cons, List.not_mem_nil, or_false] at h
    simp only [entityChars, List.mem_cons, List.not_mem_nil, or_false]
    tauto
  by_cases h4 : c = '"'
  · subst h4
    have e : escChar '"' = ['&', 'q', 'u', 'o', 't', ';'] := by decide
    rw [e] at h; right
    simp only [List.mem_cons, List.not_mem_nil, or_false] at h
    simp only [entityChars, List.mem_cons, List.not_mem_nil, or_false]
    tauto
  by_cases h5 : c = '\x27'
  · subst h5
    have e : escChar '\x27' = ['&', '#', 'x', '2', '7', ';'] := by decide
    rw [e] at h; right
    simp only [List.mem_cons, List.not_mem_nil, or_false] at h
    simp only [entityChars, List.mem_cons, List.not_mem_nil, or_false]
    tauto
  · left
    simp [escChar, h1, h2, h3, h4, h5] at h
    exact h

lemma mem_escMap {x : Char} {s : List Char} (h : x ∈ escMap s) :
    ∃ c ∈ s, x ∈ escChar c := by
  induction s with
  | nil => simp [escMap] at h
  | cons c cs ih =>
      have e : escMap (c :: cs) = escChar c ++ escMap cs := rfl
      rw [e, List.mem_append] at h
      rcases h with h | h
      · exact ⟨c, List.mem_cons_self c cs, h⟩
      · rcases ih h with ⟨d, hd, hx⟩
        exact ⟨d, List.mem_cons_of_mem _ hd, hx⟩

/-- Characters that escape can never emit raw: the markup-significant
open-angle and double-quote never survive escaping. -/
lemma escape_no_raw {x : Char} {s : List Char} (h : x ∈ escape s) :
    x ≠ '<' ∧ x ≠ '"' := by
  rw [escape_eq_escMap] at h
  rcases mem_escMap h with ⟨c, _, hx⟩
  rcases mem_escChar hx with h1 | h1
  · subst h1
    refine ⟨?_, ?_⟩ <;> (intro hc; rw [hc] at hx; revert hx; decide)
  · refine ⟨?_, ?_⟩ <;> (intro hc; subst hc; revert h1; decide)

lemma escape_break_free {x : Char} {s : List Char}
    (hs : ∀ c ∈ s, isBreakChar c = false) (h : x ∈ escape s) :
    isBreakChar x = false := by
  rw [escape_eq_escMap] at h
  rcases mem_escMap h with ⟨c, hc, hx⟩
  rcases mem_escChar hx with h1 | h1
  · subst h1; exact hs _ hc
  · simp only [entityChars, List.mem_cons, List.not_mem_nil, or_false] at h1
    rcases h1 with h1|h1|h1|h1|h1|h1|h1|h1|h1|h1|h1|h1|h1|h1|h1 <;> (subst h1; decide)

/-- Splitting on the newline character, as Python str.split with separator
backslash-n: every separator produces a field, and the empty string gives one
empty field. -/
def splitOnNl : List Char → List (List Char)
  | [] => [[]]
  | c :: rest =>
    if c = '\n' then [] :: splitOnNl rest
    else (c :: (splitOnNl rest).headI) :: (splitOnNl rest).tail

/-- Joining of a list of lines with single newline characters, as the join
method of a one-newline string. -/
def joinNl : List (List Char) → List Char
  | [] => []
  | l :: ls => l ++ if ls.isEmpty then [] else '\n' :: joinNl ls

/-- Handling of a carriage return and line feed pair as a single line boundary
inside str.splitlines. -/
def crlfSkip : List Char → List Char
  | [] => []
  | d :: r2 => if d = '\n' then r2 else d :: r2

/-- Scanning of one line: the content before the first line boundary, and the
remainder of the text after that boundary. -/
def takeLine : List Char → List Char × List Char
  | [] => ([], [])
  | c :: rest =>
    if isBreakChar c then
      ([], if c = '\r' then crlfSkip rest else rest)
    else
      ((c :: (takeLine rest).1), (takeLine rest).2)

lemma crlfSkip_length_le (s : List Char) : (crlfSkip s).length ≤ s.length := by
  cases s with
  | nil => simp [crlfSkip]
  | cons d r2 =>
      by_cases hd : d = '\n' <;> simp [crlfSkip, hd]

lemma takeLine_cons_break {c : Char} (rest : List Char) (hb : isBreakChar c = true) :
    takeLine (c :: rest) = ([], if c = '\r' then crlfSkip rest else rest) := by
  simp [takeLine, hb]

lemma takeLine_cons_nobreak {c : Char} (rest : List Char) (hb : isBreakChar c = false) :
    takeLine (c :: rest) = (c :: (takeLine rest).1, (takeLine rest).2) := by
  simp [takeLine, hb]

lemma takeLine_snd_length_le (s : List Char) : (takeLine s).2.length ≤ s.length := by
  induction s with
  | nil => simp [takeLine]
  | cons c rest ih =>
      by_cases hb : isBreakChar c
      · rw [takeLine_cons_break rest hb]
        by_cases hr : c = '\r'
        · rw [if_pos hr]
          have := crlfSkip_length_le rest
          simp only [List.length_cons]; omega
        · rw [if_neg hr]
          simp only [List.length_cons]; omega
      · rw [Bool.not_eq_true] at hb
        rw [takeLine_cons_nobreak rest hb]
        simp only [List.length_cons]; omega

lemma takeLine_snd_length_lt (s : List Char) (h : s ≠ []) :
    (takeLine s).2.length < s.length := by
  cases s with
  | nil => exact absurd rfl h
  | cons c rest =>
      by_cases hb : isBreakChar c
      · rw [takeLine_cons_break rest hb]
        by_cases hr : c = '\r'
        · rw [if_pos hr]
          have := crlfSkip_length_le rest
          simp only [List.length_cons]; omega
        · rw [if_neg hr]
          simp only [List.length_cons]; omega
      · rw [Bool.not_eq_true] at hb
        rw [takeLine_cons_nobreak rest hb]
        have := takeLine_snd_length_le rest
        simp only [List.length_cons]; omega

/-- Fuel-driven scanner behind pySplitlines; the fuel only bounds the number
of lines (one unit per line) so that the recursion is structural and the
definition computes inside the kernel. -/
def pySplitlinesF : Nat → List Char → List (List Char)
  | 0, _ => []
  | _ + 1, [] => []
  | fuel + 1, s@(_ :: _) => (takeLine s).1 :: pySplitlinesF fuel (takeLine s).2

/-- Model of Python str.splitlines: repeatedly scan up to the next line
boundary; a trailing boundary does not produce a final empty line.  The
length of the string bounds the number of lines, so it serves as fuel. -/
def pySplitlines (s : List Char) : List (List Char) := pySplitlinesF s.length s

lemma pySplitlinesF_irrel : ∀ (f1 : Nat) (s : List Char) (f2 : Nat),
    s.length ≤ f1 → s.length ≤ f2 → pySplitlinesF f1 s = pySplitlinesF f2 s := by
  intro f1
  induction f1 with
  | zero =>
      intro s f2 h1 _
      have hs : s = [] := List.length_eq_zero.1 (Nat.le_zero.1 h1)
      subst hs
      cases f2 <;> rfl
  | succ f1 ih =>
      intro s f2 h1 h2
      cases s with
      | nil => cases f2 <;> rfl
      | cons c rest =>
          cases f2 with
          | zero => simp at h2
          | succ f2 =>
              simp only [pySplitlinesF]
              congr 1
              have hlt := takeLine_snd_length_lt (c :: rest) (by simp)
              exact ih _ f2 (by simp at h1 hlt ⊢; omega)
                (by simp at h2 hlt ⊢; omega)

/-- Unfolding equation of pySplitlines on a nonempty string. -/
lemma pySplitlines_eq (s : List Char) (h : s ≠ []) :
    pySplitlines s = (takeLine s).1 :: pySplitlines (takeLine s).2 := by
  cases s with
  | nil => exact absurd rfl h
  | cons c rest =>
      show pySplitlinesF (c :: rest).length (c :: rest) = _
      simp only [List.length_cons, pySplitlinesF]
      congr 1
      have hlt := takeLine_snd_length_lt (c :: rest) (by simp)
      exact pySplitlinesF_irrel _ _ _ (by simp at hlt ⊢; omega) (le_refl _)

/-- Decomposition performed by takeLine: the input is the scanned line, then
the consumed boundary characters, then the remainder; the line itself is free
of boundary characters, and an empty boundary means the scan consumed the
whole input. -/
lemma takeLine_spec (s : List Char) :
    ∃ b, s = (takeLine s).1 ++ b ++ (takeLine s).2 ∧
      (∀ c ∈ (takeLine s).1, isBreakChar c = false) ∧
      (∀ c ∈ b, isBreakChar c = true) ∧
      (b = [] → (takeLine s).2 = []) := by
  induction s with
  | nil => exact ⟨[], by simp [takeLine]⟩
  | cons c rest ih =>
      by_cases hb : isBreakChar c
      · rw [takeLine_cons_break rest hb]
        by_cases hr : c = '\r'
        · subst hr
          rw [if_pos rfl]
          cases rest with
          | nil =>
              refine ⟨['\r'], by simp [crlfSkip], by simp, ?_, by simp⟩
              intro x hx
              simp only [List.mem_cons, List.not_mem_nil, or_false] at hx
              subst hx; decide
          | cons d r2 =>
              by_cases hd : d = '\n'
              · subst hd
                refine ⟨['\r', '\n'], by simp [crlfSkip], by simp, ?_, by simp⟩
                intro x hx
                simp only [List.mem_cons, List.not_mem_nil, or_false] at hx
                rcases hx with hx | hx <;> (subst hx; decide)
              · refine ⟨['\r'], by simp [crlfSkip, hd], by simp, ?_, by simp⟩
                intro x hx
                simp only [List.mem_cons, List.not_mem_nil, or_false] at hx
                subst hx; decide
        · rw [if_neg hr]
          refine ⟨[c], by simp, by simp, ?_, by simp⟩
          intro x hx
          simp only [List.mem_cons, List.not_mem_nil, or_false] at hx
          subst hx; exact hb
      · rw [Bool.not_eq_true] at hb
        rw [takeLine_cons_nobreak rest hb]
        rcases ih with ⟨b, hseq, hfst, hbrk, hlast⟩
        refine ⟨b, ?_, ?_, hbrk, hlast⟩
        · conv_lhs => rw [hseq]
          simp
        · intro x hx
          simp only [List.mem_cons] at hx
          rcases hx with hx | hx
          · subst hx; exact hb
          · exact hfst x hx

lemma splitOnNl_no_nl (a : List Char) (h : '\n' ∉ a) : splitOnNl a = [a] := by
  induction a with
  | nil => rfl
  | cons c rest ih =>
      have hc : ¬ c = '\n' := fun hc => h (hc ▸ List.mem_cons_self c rest)
      have ih2 := ih (fun hm => h (List.mem_cons_of_mem c hm))
      simp [splitOnNl, hc, ih2]

lemma splitOnNl_append (a rest : List Char) (h : '\n' ∉ a) :
    splitOnNl (a ++ '\n' :: rest) = a :: splitOnNl rest := by
  induction a with
  | nil => simp [splitOnNl]
  | cons c a2 ih =>
      have hc : ¬ c = '\n' := fun hc => h (hc ▸ List.mem_cons_self c a2)
      have ih2 := ih (fun hm => h (List.mem_cons_of_mem c hm))
      simp [splitOnNl, hc, ih2]

lemma joinNl_cons (l : List Char) (ls : List (List Char)) (h : ls ≠ []) :
    joinNl (l :: ls) = l ++ '\n' :: joinNl ls := by
  cases ls with
  | nil => exact absurd rfl h
  | cons x xs => simp [joinNl]

lemma joinNl_single (l : List Char) : joinNl [l] = l := by
  simp [joinNl]

lemma joinNl_append (xs ys : List (List Char)) (hx : xs ≠ []) (hy : ys ≠ []) :
    joinNl (xs ++ ys) = joinNl xs ++ '\n' :: joinNl ys := by
  induction xs with
  | nil => exact absurd rfl hx
  | cons x xs2 ih =>
      cases xs2 with
      | nil =>
          cases ys with
          | nil => exact absurd rfl hy
          | cons y ys2 => simp [joinNl]
      | cons z zs =>
          rw [List.cons_append, joinNl_cons _ _ (by simp),
            joinNl_cons _ _ (by simp), ih (by simp)]
          simp [List.append_assoc]

lemma subStr_refl_mid (x a b : List Char) : SubStr x (a ++ x ++ b) := ⟨a, b, rfl⟩

lemma subStr_trans {x y s : List Char} (h1 : SubStr x y) (h2 : SubStr y s) :
    SubStr x s := by
  rcases h1 with ⟨a1, b1, e1⟩
  rcases h2 with ⟨a2, b2, e2⟩
  exact ⟨a2 ++ a1, b1 ++ b2, by rw [e2, e1]; simp [List.append_assoc]⟩

lemma subStr_joinNl {l : List Char} {ls : List (List Char)} (h : l ∈ ls) :
    SubStr l (joinNl ls) := by
  induction ls with
  | nil => cases h
  | cons x xs ih =>
      rcases List.mem_cons.1 h with h1 | h1
      · subst h1
        exact ⟨[], if xs.isEmpty then [] else '\n' :: joinNl xs, by simp [joinNl]⟩
      · have hne : xs ≠ [] := by intro he; rw [he] at h1; cases h1
        rw [joinNl_cons _ _ hne]
        rcases ih h1 with ⟨a, b, e⟩
        exact ⟨x ++ '\n' :: a, b, by rw [e]; simp [List.append_assoc]⟩

/-- Occurrence of a pattern in a string split by a single non-pattern
character: the occurrence lies entirely on one side. -/
lemma subStr_split_single {x X Y : List Char} {c : Char} (hc : c ∉ x)
    (h : SubStr x (X ++ c :: Y)) : SubStr x X ∨ SubStr x Y := by
  rcases h with ⟨a, b, e⟩
  by_cases h1 : a.length + x.length ≤ X.length
  · left
    have ht := congrArg (List.take (a.length + x.length)) e
    rw [List.take_append_of_le_length h1] at ht
    have hr : (a ++ x ++ b).take (a.length + x.length) = a ++ x := by
      rw [show a.length + x.length = (a ++ x).length by simp, List.take_left]
    rw [hr] at ht
    refine ⟨a, X.drop (a.length + x.length), ?_⟩
    conv_lhs => rw [← List.take_append_drop (a.length + x.length) X]
    rw [ht]
  by_cases h2 : X.length + 1 ≤ a.length
  · right
    have hd := congrArg (List.drop (X.length + 1)) e
    have l1 : (X ++ c :: Y).drop (X.length + 1) = Y := by
      rw [show X ++ c :: Y = (X ++ [c]) ++ Y by simp,
        show X.length + 1 = (X ++ [c]).length by simp, List.drop_left]
    have l2 : (a ++ x ++ b).drop (X.length + 1) = a.drop (X.length + 1) ++ x ++ b := by
      rw [show a ++ x ++ b = a ++ (x ++ b) by simp [List.append_assoc],
        List.drop_append_of_le_length h2]
      simp [List.append_assoc]
    rw [l1, l2] at hd
    exact ⟨_, _, hd⟩
  · exfalso
    have ha : a.length ≤ X.length := by omega
    have hd := congrArg (List.drop a.length) e
    have l1 : (X ++ c :: Y).drop a.length = X.drop a.length ++ c :: Y :=
      List.drop_append_of_le_length ha
    have l2 : (a ++ x ++ b).drop a.length = x ++ b := by
      rw [show a ++ x ++ b = a ++ (x ++ b) by simp [List.append_assoc], List.drop_left]
    rw [l1, l2] at hd
    have hm : (X.drop a.length).length < x.length := by
      rw [List.length_drop]; omega
    have hd2 := congrArg (List.drop (X.drop a.length).length) hd
    have l3 : (X.drop a.length ++ c :: Y).drop (X.drop a.length).length = c :: Y :=
      List.drop_left _ _
    have l4 : (x ++ b).drop (X.drop a.length).length =
        x.drop (X.drop a.length).length ++ b :=
      List.drop_append_of_le_length (le_of_lt hm)
    rw [l3, l4] at hd2
    have hne : x.drop (X.drop a.length).length ≠ [] := by
      intro hnil
      have := congrArg List.length hnil
      rw [List.length_drop] at this
      simp at this; omega
    cases hx : x.drop (X.drop a.length).length with
    | nil => exact hne hx
    | cons d t =>
        rw [hx] at hd2
        have hdc : d = c := by
          have h5 := congrArg (List.take 1) hd2
          simp at h5
          exact h5.symm
        have hdm : d ∈ x := by
          have h6 : d ∈ x.drop (X.drop a.length).length := by
            rw [hx]; exact List.mem_cons_self d t
          exact List.mem_of_mem_drop h6
        exact hc (hdc ▸ hdm)

/-- Occurrence of a break-free pattern cannot begin inside a run of break
characters: it lies entirely in the remainder. -/
lemma subStr_drop_breaks {x b r : List Char} (hx : x ≠ [])
    (hxf : ∀ c ∈ x, isBreakChar c = false) (hb : ∀ c ∈ b, isBreakChar c = true)
    (h : SubStr x (b ++ r)) : SubStr x r := by
  induction b with
  | nil => simpa using h
  | cons c b2 ih =>
      have hcx : c ∉ x := by
        intro hm
        have := hxf c hm
        rw [hb c (List.mem_cons_self c b2)] at this
        cases this
      have h2 : SubStr x ([] ++ c :: (b2 ++ r)) := by simpa using h
      rcases subStr_split_single hcx h2 with h3 | h3
      · rcases h3 with ⟨a, b', e⟩
        exact absurd (by
          have := congrArg List.length e
          simp at this
          have : x.length = 0 := by omega
          exact List.length_eq_zero.1 this) hx
      · exact ih (fun c hm => hb c (List.mem_cons_of_mem _ hm)) h3

/-- Occurrence of a break-free pattern around a nonempty run of break
characters: the occurrence lies entirely on one side of the run. -/
lemma subStr_split_breaks {x X b Y : List Char} (hx : x ≠ [])
    (hxf : ∀ c ∈ x, isBreakChar c = false) (hb : ∀ c ∈ b, isBreakChar c = true)
    (hbne : b ≠ []) (h : SubStr x (X ++ b ++ Y)) : SubStr x X ∨ SubStr x Y := by
  cases b with
  | nil => exact absurd rfl hbne
  | cons c b2 =>
      have hcx : c ∉ x := by
        intro hm
        have := hxf c hm
        rw [hb c (List.mem_cons_self c b2)] at this
        cases this
      have h2 : SubStr x (X ++ c :: (b2 ++ Y)) := by
        rcases h with ⟨a, b', e⟩
        exact ⟨a, b', by rw [← e]; simp [List.append_assoc]⟩
      rcases subStr_split_single hcx h2 with h3 | h3
      · exact Or.inl h3
      · exact Or.inr (subStr_drop_breaks hx hxf
          (fun c hm => hb c (List.mem_cons_of_mem _ hm)) h3)

/-- Localisation of a break-free substring to one of the lines produced by
str.splitlines. -/
lemma subStr_to_line {x : List Char} (hx : x ≠ [])
    (hxf : ∀ c ∈ x, isBreakChar c = false) :
    ∀ s, SubStr x s → ∃ l ∈ pySplitlines s, SubStr x l := by
  have H : ∀ n s, s.length ≤ n → SubStr x s → ∃ l ∈ pySplitlines s, SubStr x l := by
    intro n
    induction n with
    | zero =>
        intro s hs h
        have hsnil : s = [] := List.length_eq_zero.1 (Nat.le_zero.1 hs)
        subst hsnil
        rcases h with ⟨a, b, e⟩
        exact absurd (by
          have := congrArg List.length e
          simp at this
          have : x.length = 0 := by omega
          exact List.length_eq_zero.1 this) hx
    | succ n ih =>
        intro s hs h
        by_cases hsnil : s = []
        · subst hsnil
          rcases h with ⟨a, b, e⟩
          exact absurd (by
            have := congrArg List.length e
            simp at this
            have : x.length = 0 := by omega
            exact List.length_eq_zero.1 this) hx
        · rcases takeLine_spec s with ⟨b, hseq, hfst, hbrk, hlast⟩
          rw [pySplitlines_eq s hsnil]
          by_cases hbe : b = []
          · subst hbe
            have hsnd := hlast rfl
            rw [hsnd] at hseq
            simp at hseq
            refine ⟨(takeLine s).1, List.mem_cons_self _ _, ?_⟩
            rw [← hseq]; exact h
          · have h2 : SubStr x ((takeLine s).1 ++ b ++ (takeLine s).2) := by
              rw [← hseq]; exact h
            rcases subStr_split_breaks hx hxf hbrk hbe h2 with h3 | h3
            · exact ⟨(takeLine s).1, List.mem_cons_self _ _, h3⟩
            · have hlen : (takeLine s).2.length ≤ n := by
                have := takeLine_snd_length_lt s hsnil
                omega
              rcases ih (takeLine s).2 hlen h3 with ⟨l, hl, hsub⟩
              exact ⟨l, List.mem_cons_of_mem _ hl, hsub⟩
  intro s
  exact H s.length s (le_refl _)

/-- Presence of every splitlines line inside the original string. -/
lemma line_subStr : ∀ s : List Char, ∀ l ∈ pySplitlines s, SubStr l s := by
  have H : ∀ n s, s.length ≤ n → ∀ l ∈ pySplitlines s, SubStr l s := by
    intro n
    induction n with
    | zero =>
        intro s hs l hl
        have hsnil : s = [] := List.length_eq_zero.1 (Nat.le_zero.1 hs)
        subst hsnil
        rw [show pySplitlines [] = [] from rfl] at hl
        cases hl
    | succ n ih =>
        intro s hs l hl
        by_cases hsnil : s = []
        · subst hsnil
          rw [show pySplitlines [] = [] from rfl] at hl
          cases hl
        · rw [pySplitlines_eq s hsnil] at hl
          rcases takeLine_spec s with ⟨b, hseq, hfst, hbrk, hlast⟩
          rcases List.mem_cons.1 hl with h1 | h1
          · subst h1
            refine ⟨[], b ++ (takeLine s).2, ?_⟩
            conv_lhs => rw [hseq]
            simp [List.append_assoc]
          · have hlen : (takeLine s).2.length ≤ n := by
              have := takeLine_snd_length_lt s hsnil
              omega
            have hsub := ih (takeLine s).2 hlen l h1
            rcases hsub with ⟨a, b', e⟩
            refine ⟨(takeLine s).1 ++ b ++ a, b', ?_⟩
            conv_lhs => rw [hseq, e]
            simp [List.append_assoc]
  intro s
  exact H s.length s (le_refl _)

lemma takeLine_break_free (a : List Char) (h : ∀ c ∈ a, isBreakChar c = false) :
    takeLine a = (a, []) := by
  induction a with
  | nil => rfl
  | cons c rest ih =>
      rw [takeLine_cons_nobreak rest (h c (List.mem_cons_self c rest)),
        ih (fun d hd => h d (List.mem_cons_of_mem c hd))]

lemma takeLine_nl (a rest : List Char) (h : ∀ c ∈ a, isBreakChar c = false) :
    takeLine (a ++ '\n' :: rest) = (a, rest) := by
  induction a with
  | nil =>
      rw [List.nil_append, takeLine_cons_break rest (by decide), if_neg (by decide)]
  | cons c a2 ih =>
      rw [List.cons_append, takeLine_cons_nobreak _ (h c (List.mem_cons_self c a2)),
        ih (fun d hd => h d (List.mem_cons_of_mem c hd))]

lemma pySplitlines_nil : pySplitlines [] = [] := by
  rfl

lemma pySplitlines_break_free (a : List Char) (h : ∀ c ∈ a, isBreakChar c = false)
    (hne : a ≠ []) : pySplitlines a = [a] := by
  rw [pySplitlines_eq a hne, takeLine_break_free a h]
  simp [pySplitlines_nil]

lemma pySplitlines_append (a rest : List Char) (h : ∀ c ∈ a, isBreakChar c = false) :
    pySplitlines (a ++ '\n' :: rest) = a :: pySplitlines rest := by
  rw [pySplitlines_eq _ (by simp), takeLine_nl a rest h]

lemma leadsWith_iff (p s : List Char) : leadsWith p s = true ↔ ∃ t, s = p ++ t := by
  induction p generalizing s with
  | nil => simp [leadsWith]
  | cons c ps ih =>
      cases s with
      | nil =>
          simp only [leadsWith]
          constructor
          · intro hx; cases hx
          · rintro ⟨t, ht⟩; cases ht
      | cons d ss =>
          simp only [leadsWith, Bool.and_eq_true, decide_eq_true_eq, ih]
          constructor
          · rintro ⟨rfl, t, rfl⟩; exact ⟨t, rfl⟩
          · rintro ⟨t, ht⟩
            injection ht with h1 h2
            exact ⟨h1.symm, t, h2⟩

lemma leadsWith_append (p t : List Char) : leadsWith p (p ++ t) = true :=
  (leadsWith_iff p (p ++ t)).2 ⟨t, rfl⟩

lemma hasSub_iff (pat s : List Char) : hasSub pat s = true ↔ SubStr pat s := by
  induction s with
  | nil =>
      simp only [hasSub, leadsWith_iff]
      constructor
      · rintro ⟨t, ht⟩
        exact ⟨[], t, by simp [← ht]⟩
      · rintro ⟨a, b, e⟩
        have : a = [] ∧ pat = [] ∧ b = [] := by
          have := congrArg List.length e
          simp at this
          refine ⟨List.length_eq_zero.1 ?_, List.length_eq_zero.1 ?_, List.length_eq_zero.1 ?_⟩ <;> omega
        exact ⟨[], by simp [this.2.1]⟩
  | cons c rest ih =>
      simp only [hasSub, Bool.or_eq_true, leadsWith_iff, ih]
      constructor
      · rintro (⟨t, ht⟩ | ⟨a, b, e⟩)
        · exact ⟨[], t, by simp [ht]⟩
        · exact ⟨c :: a, b, by simp [e]⟩
      · rintro ⟨a, b, e⟩
        cases a with
        | nil => exact Or.inl ⟨b, by simpa using e⟩
        | cons d a2 =>
            injection e with h1 h2
            exact Or.inr ⟨a2, b, h2⟩

/-- Leading run of spaces and tabs of a line. -/
def leadingWs (l : List Char) : List Char := l.takeWhile isSpaceTab

/-- Normalisation step of textwrap.dedent: a line consisting solely of spaces
and tabs is replaced by an empty line. -/
def wsNormalize (l : List Char) : List Char :=
  if !l.isEmpty && l.all isSpaceTab then [] else l

/-- Longest common prefix of two indentation strings, the net effect of the
margin-comparison loop in textwrap.dedent. -/
def commonStart : List Char → List Char → List Char
  | x :: xs, y :: ys => if x = y then x :: commonStart xs ys else []
  | _, _ => []

/-- Margin computed by textwrap.dedent over the normalised lines: the common
prefix of the leading whitespace of all lines that still have content. -/
def dedentMargin (ls : List (List Char)) : List Char :=
  match (ls.filter (fun l => !l.isEmpty)).map leadingWs with
  | [] => []
  | i :: rest => rest.foldl commonStart i

/-- Model of textwrap.dedent: split on newlines, blank out whitespace-only
lines, compute the common margin, and remove it from the start of every line
that carries it. -/
def pyDedent (s : List Char) : List Char :=
  let ls := (splitOnNl s).map wsNormalize
  let margin := dedentMargin ls
  joinNl (ls.map (fun l => if leadsWith margin l then l.drop margin.length else l))

/-- Model of str.strip with no arguments. -/
def pyStrip (s : List Char) : List Char :=
  ((s.dropWhile isStripChar).reverse.dropWhile isStripChar).reverse

/-- Record modelling the Project dataclass: name, url, and the optional
description (None becomes Option.none). -/
structure Project where
  name : List Char
  url : List Char
  description : Option (List Char)
deriving DecidableEq, Repr

/-- Truthiness test Python applies to self.description: None and the empty
string are falsy. -/
def descTruthy (p : Project) : Bool :=
  match p.description with
  | some d => !d.isEmpty
  | none => false

/-- Run of n space characters. -/
def sp (n : Nat) : List Char := List.replicate n ' '

/-- Contents of the f-string inside Project.nav_item, before textwrap.dedent
and str.strip are applied: a newline, then four source lines each indented as
in the Python source (12 or 14 spaces), then a final line of 12 spaces. -/
def navItemRaw (p : Project) : List Char :=
  let title_attr := if descTruthy p then escape (p.description.getD []) else []
  let description_html :=
    if descTruthy p then
      ("<span class=\"description\">".data) ++ escape (p.description.getD []) ++
        ("</span>".data)
    else []
  let title_attribute :=
    if !title_attr.isEmpty then (" title=\"".data) ++ title_attr ++ ("\"".data) else []
  '\n' :: (sp 12 ++ ("<li>".data)) ++
  '\n' :: (sp 14 ++ ("<a href=\"".data) ++ escape p.url ++ ("\"".data) ++
    title_attribute ++ (">".data) ++ escape p.name ++ ("</a>".data)) ++
  '\n' :: (sp 14 ++ description_html) ++
  '\n' :: (sp 12 ++ ("</li>".data)) ++
  '\n' :: sp 12

/-- Model of Project.nav_item: dedent the f-string and strip it. -/
def nav_item (p : Project) : List Char := pyStrip (pyDedent (navItemRaw p))

/-- Model of indent_block: prefix pad to every line, including empty ones. -/
def indent_block (text : List Char) (spaces : Nat) : List Char :=
  let pad := sp spaces
  joinNl ((pySplitlines text).map (fun l => if !l.isEmpty then pad ++ l else pad))

/-- Contents of the f-string for the empty-project placeholder, before dedent
and strip. -/
def noProjectsRaw : List Char :=
  '\n' :: (sp 12 ++
    ("<p>No classified projects are currently published. Add a project and rerun the updater.</p>".data)) ++
  '\n' :: sp 12

/-- Model of build_navigation_markup. -/
def build_navigation_markup (projects : List Project) : List Char :=
  if projects.isEmpty then pyStrip (pyDedent noProjectsRaw)
  else
    let nav_items := joinNl (projects.map (fun p => indent_block (nav_item p) 2))
    joinNl (("<ul class=\"classified-projects\">".data) ::
      ((if !nav_items.isEmpty then pySplitlines nav_items else []) ++ [("</ul>".data)]))

lemma nl_not_mem {s : List Char} (h : ∀ c ∈ s, isBreakChar c = false) : '\n' ∉ s := by
  intro hm
  have h2 := h _ hm
  rw [show isBreakChar '\n' = true from rfl] at h2
  cases h2

lemma bf_append {a b : List Char} (ha : ∀ c ∈ a, isBreakChar c = false)
    (hb : ∀ c ∈ b, isBreakChar c = false) : ∀ c ∈ a ++ b, isBreakChar c = false := by
  intro c hc
  rcases List.mem_append.1 hc with h | h
  · exact ha c h
  · exact hb c h

lemma bf_cons {a : List Char} {d : Char} (hd : isBreakChar d = false)
    (ha : ∀ c ∈ a, isBreakChar c = false) : ∀ c ∈ d :: a, isBreakChar c = false := by
  intro c hc
  rcases List.mem_cons.1 hc with h | h
  · subst h; exact hd
  · exact ha c h

lemma sp_all_space (k : Nat) : ∀ c ∈ sp k, isSpaceTab c = true := by
  intro c hc
  have := List.eq_of_mem_replicate hc
  subst this; rfl

lemma sp_break_free (k : Nat) : ∀ c ∈ sp k, isBreakChar c = false := by
  intro c hc
  have := List.eq_of_mem_replicate hc
  subst this; rfl

lemma isEmpty_false_of_ne {α : Type} {l : List α} (h : l ≠ []) : l.isEmpty = false := by
  cases l with
  | nil => exact absurd rfl h
  | cons c t => rfl

lemma escChar_ne_nil (c : Char) : escChar c ≠ [] := by
  unfold escChar
  split
  · simp
  split
  · simp
  split
  · simp
  split
  · simp
  split
  · simp
  · simp

lemma escape_ne_nil {d : List Char} (h : d ≠ []) : escape d ≠ [] := by
  cases d with
  | nil => exact absurd rfl h
  | cons c t =>
      rw [escape_eq_escMap]
      have e : escMap (c :: t) = escChar c ++ escMap t := rfl
      rw [e]
      intro hnil
      rcases List.append_eq_nil.1 hnil with ⟨h1, _⟩
      exact escChar_ne_nil c h1

lemma wsNormalize_keep {l : List Char} {c : Char} (hm : c ∈ l)
    (hc : isSpaceTab c = false) : wsNormalize l = l := by
  have hall : l.all isSpaceTab = false := by
    rcases Bool.eq_false_or_eq_true (l.all isSpaceTab) with h | h
    · rw [List.all_eq_true] at h
      rw [h c hm] at hc
      cases hc
    · exact h
  simp [wsNormalize, hall]

lemma wsNormalize_nil : wsNormalize [] = [] := rfl

lemma splitOnNl_cons_nl (rest : List Char) :
    splitOnNl ('\n' :: rest) = [] :: splitOnNl rest := by
  simp [splitOnNl]

lemma leadingWs_sp_lt (k : Nat) (r : List Char) :
    leadingWs (sp k ++ '<' :: r) = sp k := by
  unfold leadingWs
  rw [List.takeWhile_append_of_pos (sp_all_space k), List.takeWhile_cons,
    show isSpaceTab '<' = false from rfl]
  simp

lemma dedent_line_sp (k : Nat) (x : List Char) :
    (if leadsWith (sp k) (sp k ++ x) then (sp k ++ x).drop (sp k).length else (sp k ++ x))
      = x := by
  rw [if_pos (leadsWith_append _ _), List.drop_left]

/-- Behaviour of str.strip on text of the form pre ++ body ++ suf where pre
and suf are whitespace and body begins and ends with non-whitespace. -/
lemma pyStrip_sandwich {pre suf mid : List Char} {c d : Char}
    (hpre : ∀ x ∈ pre, isStripChar x = true) (hsuf : ∀ x ∈ suf, isStripChar x = true)
    (hc : isStripChar c = false) (hd : isStripChar d = false) :
    pyStrip (pre ++ (c :: mid ++ [d]) ++ suf) = c :: mid ++ [d] := by
  unfold pyStrip
  rw [show pre ++ (c :: mid ++ [d]) ++ suf = pre ++ (c :: (mid ++ [d] ++ suf)) by
    simp [List.append_assoc]]
  rw [List.dropWhile_append_of_pos hpre, List.dropWhile_cons, hc]
  simp only [Bool.false_eq_true, if_false]
  rw [show (c :: (mid ++ [d] ++ suf)).reverse = suf.reverse ++ (d :: (mid.reverse ++ [c])) by
    simp [List.reverse_append]]
  rw [List.dropWhile_append_of_pos (by intro x hx; exact hsuf x (List.mem_reverse.1 hx)),
    List.dropWhile_cons, hd]
  simp

lemma nl_not_mem_sp_cons (k : Nat) (t : List Char) (h : '\n' ∉ t) :
    '\n' ∉ sp k ++ '<' :: t := by
  intro hm
  rcases List.mem_append.1 hm with hm | hm
  · have := List.eq_of_mem_replicate hm
    cases this
  · rcases List.mem_cons.1 hm with hm | hm
    · cases hm
    · exact h hm

lemma lt_mem_sp_cons (k : Nat) (t : List Char) : '<' ∈ sp k ++ '<' :: t :=
  List.mem_append.2 (Or.inr (List.mem_cons_self _ _))

lemma sp_cons_ne_nil (k : Nat) (t : List Char) : sp k ++ '<' :: t ≠ [] := by
  intro h
  rcases List.append_eq_nil.1 h with ⟨_, h2⟩
  cases h2

/-- Dedent computation for the nav_item f-string when the description line is
present: the margin is the twelve-space indent, so the li lines lose all
indentation and the inner lines keep two spaces; the trailing whitespace line
becomes empty. -/
lemma pyDedent_navShape (t1 x2 x3 t4 : List Char)
    (h1 : '\n' ∉ t1) (h2 : '\n' ∉ x2) (h3 : '\n' ∉ x3) (h4 : '\n' ∉ t4) :
    pyDedent ('\n' :: ((sp 12 ++ '<' :: t1) ++ '\n' :: ((sp 14 ++ '<' :: x2) ++
        '\n' :: ((sp 14 ++ '<' :: x3) ++ '\n' :: ((sp 12 ++ '<' :: t4) ++
        '\n' :: sp 12))))) =
    '\n' :: (('<' :: t1) ++ '\n' :: ((sp 2 ++ '<' :: x2) ++
        '\n' :: ((sp 2 ++ '<' :: x3) ++ '\n' :: (('<' :: t4) ++ ['\n'])))) := by
  have hsplit : splitOnNl ('\n' :: ((sp 12 ++ '<' :: t1) ++ '\n' :: ((sp 14 ++ '<' :: x2) ++
      '\n' :: ((sp 14 ++ '<' :: x3) ++ '\n' :: ((sp 12 ++ '<' :: t4) ++
      '\n' :: sp 12))))) =
      [[], sp 12 ++ '<' :: t1, sp 14 ++ '<' :: x2, sp 14 ++ '<' :: x3,
        sp 12 ++ '<' :: t4, sp 12] := by
    rw [splitOnNl_cons_nl, splitOnNl_append _ _ (nl_not_mem_sp_cons 12 t1 h1),
      splitOnNl_append _ _ (nl_not_mem_sp_cons 14 x2 h2),
      splitOnNl_append _ _ (nl_not_mem_sp_cons 14 x3 h3),
      splitOnNl_append _ _ (nl_not_mem_sp_cons 12 t4 h4),
      splitOnNl_no_nl _ (nl_not_mem (sp_break_free 12))]
  have hnorm : List.map wsNormalize
      [[], sp 12 ++ '<' :: t1, sp 14 ++ '<' :: x2, sp 14 ++ '<' :: x3,
        sp 12 ++ '<' :: t4, sp 12] =
      [[], sp 12 ++ '<' :: t1, sp 14 ++ '<' :: x2, sp 14 ++ '<' :: x3,
        sp 12 ++ '<' :: t4, []] := by
    simp only [List.map_cons, List.map_nil, wsNormalize_nil,
      wsNormalize_keep (lt_mem_sp_cons 12 t1) rfl,
      wsNormalize_keep (lt_mem_sp_cons 14 x2) rfl,
      wsNormalize_keep (lt_mem_sp_cons 14 x3) rfl,
      wsNormalize_keep (lt_mem_sp_cons 12 t4) rfl,
      show wsNormalize (sp 12) = [] from by decide]
  have hmarg : dedentMargin
      [[], sp 12 ++ '<' :: t1, sp 14 ++ '<' :: x2, sp 14 ++ '<' :: x3,
        sp 12 ++ '<' :: t4, []] = sp 12 := by
    unfold dedentMargin
    rw [show List.filter (fun l => !l.isEmpty)
        [[], sp 12 ++ '<' :: t1, sp 14 ++ '<' :: x2, sp 14 ++ '<' :: x3,
          sp 12 ++ '<' :: t4, []] =
        [sp 12 ++ '<' :: t1, sp 14 ++ '<' :: x2, sp 14 ++ '<' :: x3,
          sp 12 ++ '<' :: t4] from by
      simp only [List.filter_cons, List.filter_nil,
        isEmpty_false_of_ne (sp_cons_ne_nil 12 t1),
        isEmpty_false_of_ne (sp_cons_ne_nil 14 x2),
        isEmpty_false_of_ne (sp_cons_ne_nil 14 x3),
        isEmpty_false_of_ne (sp_cons_ne_nil 12 t4)]
      rfl]
    rw [List.map_cons, List.map_cons, List.map_cons, List.map_cons, List.map_nil,
      leadingWs_sp_lt 12 t1, leadingWs_sp_lt 14 x2, leadingWs_sp_lt 14 x3,
      leadingWs_sp_lt 12 t4]
    decide
  simp only [pyDedent]
  rw [hsplit, hnorm, hmarg]
  rw [List.map_cons, List.map_cons, List.map_cons, List.map_cons, List.map_cons,
    List.map_cons, List.map_nil]
  rw [if_neg (by decide : ¬ (leadsWith (sp 12) [] = true))]
  rw [dedent_line_sp 12 ('<' :: t1)]
  rw [show sp 14 ++ '<' :: x2 = sp 12 ++ (sp 2 ++ '<' :: x2) from by
    rw [show sp 14 = sp 12 ++ sp 2 from by decide, List.append_assoc]]
  rw [dedent_line_sp 12 (sp 2 ++ '<' :: x2)]
  rw [show sp 14 ++ '<' :: x3 = sp 12 ++ (sp 2 ++ '<' :: x3) from by
    rw [show sp 14 = sp 12 ++ sp 2 from by decide, List.append_assoc]]
  rw [dedent_line_sp 12 (sp 2 ++ '<' :: x3)]
  rw [dedent_line_sp 12 ('<' :: t4)]
  simp [joinNl]

/-- Dedent computation for the nav_item f-string when the description is
absent: the third source line is whitespace-only and becomes an empty line. -/
lemma pyDedent_navShapeNoDesc (t1 x2 t4 : List Char)
    (h1 : '\n' ∉ t1) (h2 : '\n' ∉ x2) (h4 : '\n' ∉ t4) :
    pyDedent ('\n' :: ((sp 12 ++ '<' :: t1) ++ '\n' :: ((sp 14 ++ '<' :: x2) ++
        '\n' :: (sp 14 ++ '\n' :: ((sp 12 ++ '<' :: t4) ++
        '\n' :: sp 12))))) =
    '\n' :: (('<' :: t1) ++ '\n' :: ((sp 2 ++ '<' :: x2) ++
        '\n' :: ('\n' :: (('<' :: t4) ++ ['\n'])))) := by
  have hsplit : splitOnNl ('\n' :: ((sp 12 ++ '<' :: t1) ++ '\n' :: ((sp 14 ++ '<' :: x2) ++
      '\n' :: (sp 14 ++ '\n' :: ((sp 12 ++ '<' :: t4) ++ '\n' :: sp 12))))) =
      [[], sp 12 ++ '<' :: t1, sp 14 ++ '<' :: x2, sp 14, sp 12 ++ '<' :: t4, sp 12] := by
    rw [splitOnNl_cons_nl, splitOnNl_append _ _ (nl_not_mem_sp_cons 12 t1 h1),
      splitOnNl_append _ _ (nl_not_mem_sp_cons 14 x2 h2),
      splitOnNl_append _ _ (nl_not_mem (sp_break_free 14)),
      splitOnNl_append _ _ (nl_not_mem_sp_cons 12 t4 h4),
      splitOnNl_no_nl _ (nl_not_mem (sp_break_free 12))]
  have hnorm : List.map wsNormalize
      [[], sp 12 ++ '<' :: t1, sp 14 ++ '<' :: x2, sp 14, sp 12 ++ '<' :: t4, sp 12] =
      [[], sp 12 ++ '<' :: t1, sp 14 ++ '<' :: x2, [], sp 12 ++ '<' :: t4, []] := by
    simp only [List.map_cons, List.map_nil, wsNormalize_nil,
      wsNormalize_keep (lt_mem_sp_cons 12 t1) rfl,
      wsNormalize_keep (lt_mem_sp_cons 14 x2) rfl,
      wsNormalize_keep (lt_mem_sp_cons 12 t4) rfl,
      show wsNormalize (sp 14) = [] from by decide,
      show wsNormalize (sp 12) = [] from by decide]
  have hmarg : dedentMargin
      [[], sp 12 ++ '<' :: t1, sp 14 ++ '<' :: x2, [], sp 12 ++ '<' :: t4, []] = sp 12 := by
    unfold dedentMargin
    rw [show List.filter (fun l => !l.isEmpty)
        [[], sp 12 ++ '<' :: t1, sp 14 ++ '<' :: x2, [], sp 12 ++ '<' :: t4, []] =
        [sp 12 ++ '<' :: t1, sp 14 ++ '<' :: x2, sp 12 ++ '<' :: t4] from by
      simp only [List.filter_cons, List.filter_nil,
        isEmpty_false_of_ne (sp_cons_ne_nil 12 t1),
        isEmpty_false_of_ne (sp_cons_ne_nil 14 x2),
        isEmpty_false_of_ne (sp_cons_ne_nil 12 t4)]
      rfl]
    rw [List.map_cons, List.map_cons, List.map_cons, List.map_nil,
      leadingWs_sp_lt 12 t1, leadingWs_sp_lt 14 x2, leadingWs_sp_lt 12 t4]
    decide
  simp only [pyDedent]
  rw [hsplit, hnorm, hmarg]
  rw [List.map_cons, List.map_cons, List.map_cons, List.map_cons, List.map_cons,
    List.map_cons, List.map_nil]
  rw [if_neg (by decide : ¬ (leadsWith (sp 12) [] = true))]
  rw [dedent_line_sp 12 ('<' :: t1)]
  rw [show sp 14 ++ '<' :: x2 = sp 12 ++ (sp 2 ++ '<' :: x2) from by
    rw [show sp 14 = sp 12 ++ sp 2 from by decide, List.append_assoc]]
  rw [dedent_line_sp 12 (sp 2 ++ '<' :: x2)]
  rw [dedent_line_sp 12 ('<' :: t4)]
  simp [joinNl]

/-- Template equality for nav_item when a nonempty description is present:
the href, title attribute, anchor text, and description span each hold the
escape of the corresponding field. -/
lemma nav_item_desc (p : Project) (d : List Char) (hsome : p.description = some d)
    (hd : d ≠ [])
    (hn : ∀ c ∈ p.name, isBreakChar c = false)
    (hu : ∀ c ∈ p.url, isBreakChar c = false)
    (hdd : ∀ c ∈ d, isBreakChar c = false) :
    nav_item p =
      ("<li>\n  <a href=\"".data) ++ escape p.url ++ ("\" title=\"".data) ++
        escape d ++ ("\">".data) ++ escape p.name ++
        ("</a>\n  <span class=\"description\">".data) ++ escape d ++
        ("</span>\n</li>".data) := by
  have hdt : descTruthy p = true := by
    simp [descTruthy, hsome, isEmpty_false_of_ne hd]
  have hne : (escape d).isEmpty = false := isEmpty_false_of_ne (escape_ne_nil hd)
  have bu : ∀ c ∈ escape p.url, isBreakChar c = false :=
    fun c hc => escape_break_free hu hc
  have bn : ∀ c ∈ escape p.name, isBreakChar c = false :=
    fun c hc => escape_break_free hn hc
  have bd : ∀ c ∈ escape d, isBreakChar c = false :=
    fun c hc => escape_break_free hdd hc
  have bx2 : ∀ c ∈ ("a href=\"".data) ++ escape p.url ++ ("\" title=\"".data) ++
      escape d ++ ("\">".data) ++ escape p.name ++ ("</a>".data),
      isBreakChar c = false := by
    refine bf_append (bf_append (bf_append (bf_append (bf_append (bf_append
      (by decide) bu) (by decide)) bd) (by decide)) bn) (by decide)
  have bx3 : ∀ c ∈ ("span class=\"description\">".data) ++ escape d ++
      ("</span>".data), isBreakChar c = false := by
    refine bf_append (bf_append (by decide) bd) (by decide)
  have hraw : navItemRaw p =
      '\n' :: ((sp 12 ++ '<' :: ("li>".data)) ++
      '\n' :: ((sp 14 ++ '<' :: (("a href=\"".data) ++ escape p.url ++
        ("\" title=\"".data) ++ escape d ++ ("\">".data) ++ escape p.name ++
        ("</a>".data))) ++
      '\n' :: ((sp 14 ++ '<' :: (("span class=\"description\">".data) ++ escape d ++
        ("</span>".data))) ++
      '\n' :: ((sp 12 ++ '<' :: ("/li>".data)) ++
      '\n' :: sp 12)))) := by
    simp only [navItemRaw, hdt, if_true, hsome, Option.getD_some, hne,
      Bool.not_false]
    simp [List.append_assoc, sp]
  unfold nav_item
  rw [hraw, pyDedent_navShape ("li>".data) _ _ ("/li>".data) (by decide)
    (nl_not_mem bx2) (nl_not_mem bx3) (by decide)]
  rw [show '\n' :: (('<' :: ("li>".data)) ++
      '\n' :: ((sp 2 ++ '<' :: (("a href=\"".data) ++ escape p.url ++
        ("\" title=\"".data) ++ escape d ++ ("\">".data) ++ escape p.name ++
        ("</a>".data))) ++
      '\n' :: ((sp 2 ++ '<' :: (("span class=\"description\">".data) ++ escape d ++
        ("</span>".data))) ++
      '\n' :: (('<' :: ("/li>".data)) ++ ['\n'])))) =
      ['\n'] ++ ('<' :: (("li>".data) ++
      '\n' :: ((sp 2 ++ '<' :: (("a href=\"".data) ++ escape p.url ++
        ("\" title=\"".data) ++ escape d ++ ("\">".data) ++ escape p.name ++
        ("</a>".data))) ++
      '\n' :: ((sp 2 ++ '<' :: (("span class=\"description\">".data) ++ escape d ++
        ("</span>".data))) ++
      '\n' :: ('<' :: ("/li".data))))) ++ ['>']) ++ ['\n'] from by
    simp [List.append_assoc, sp]]
  rw [pyStrip_sandwich (by decide) (by decide) (by decide) (by decide)]
  simp [List.append_assoc, sp]

/-- Template equality for nav_item when the description is falsy (absent or
empty): no title attribute, no span, and a blank line remains between the
anchor line and the closing tag. -/
lemma nav_item_nodesc (p : Project) (hfalse : descTruthy p = false)
    (hn : ∀ c ∈ p.name, isBreakChar c = false)
    (hu : ∀ c ∈ p.url, isBreakChar c = false) :
    nav_item p =
      ("<li>\n  <a href=\"".data) ++ escape p.url ++ ("\">".data) ++
        escape p.name ++ ("</a>\n\n</li>".data) := by
  have bu : ∀ c ∈ escape p.url, isBreakChar c = false :=
    fun c hc => escape_break_free hu hc
  have bn : ∀ c ∈ escape p.name, isBreakChar c = false :=
    fun c hc => escape_break_free hn hc
  have bx2 : ∀ c ∈ ("a href=\"".data) ++ escape p.url ++ ("\">".data) ++
      escape p.name ++ ("</a>".data), isBreakChar c = false := by
    refine bf_append (bf_append (bf_append (bf_append (by decide) bu)
      (by decide)) bn) (by decide)
  have hraw : navItemRaw p =
      '\n' :: ((sp 12 ++ '<' :: ("li>".data)) ++
      '\n' :: ((sp 14 ++ '<' :: (("a href=\"".data) ++ escape p.url ++
        ("\">".data) ++ escape p.name ++ ("</a>".data))) ++
      '\n' :: (sp 14 ++
      '\n' :: ((sp 12 ++ '<' :: ("/li>".data)) ++
      '\n' :: sp 12)))) := by
    simp only [navItemRaw, hfalse, Bool.false_eq_true, if_false]
    simp [List.append_assoc, sp]
  unfold nav_item
  rw [hraw, pyDedent_navShapeNoDesc ("li>".data) _ ("/li>".data) (by decide)
    (nl_not_mem bx2) (by decide)]
  rw [show '\n' :: (('<' :: ("li>".data)) ++
      '\n' :: ((sp 2 ++ '<' :: (("a href=\"".data) ++ escape p.url ++
        ("\">".data) ++ escape p.name ++ ("</a>".data))) ++
      '\n' :: ('\n' :: (('<' :: ("/li>".data)) ++ ['\n'])))) =
      ['\n'] ++ ('<' :: (("li>".data) ++
      '\n' :: ((sp 2 ++ '<' :: (("a href=\"".data) ++ escape p.url ++
        ("\">".data) ++ escape p.name ++ ("</a>".data))) ++
      '\n' :: ('\n' :: ('<' :: ("/li".data))))) ++ ['>']) ++ ['\n'] from by
    simp [List.append_assoc, sp]]
  rw [pyStrip_sandwich (by decide) (by decide) (by decide) (by decide)]
  simp [List.append_assoc, sp]

lemma ne_nil_of_subStr {x s : List Char} (hx : x ≠ []) (h : SubStr x s) : s ≠ [] := by
  rcases h with ⟨a, b, e⟩
  intro he
  rw [he] at e
  have hlen := congrArg List.length e
  simp at hlen
  exact hx (List.length_eq_zero.1 (by omega))

lemma subStr_indent_block {x t : List Char} (hx : x ≠ [])
    (hbf : ∀ c ∈ x, isBreakChar c = false) (h : SubStr x t) (k : Nat) :
    SubStr x (indent_block t k) := by
  rcases subStr_to_line hx hbf t h with ⟨l, hl, hsub⟩
  have hlne : l ≠ [] := by
    intro he
    rw [he] at hsub
    exact ne_nil_of_subStr hx hsub rfl
  unfold indent_block
  refine subStr_trans ?_ (subStr_joinNl (List.mem_map_of_mem _ hl))
  rw [show (if (!l.isEmpty) = true then sp k ++ l else sp k) = sp k ++ l from by
    rw [isEmpty_false_of_ne hlne]; rfl]
  rcases hsub with ⟨a, b, e⟩
  exact ⟨sp k ++ a, b, by rw [e]; simp [List.append_assoc]⟩

lemma subStr_frag {x : List Char} {p : Project} {ps : List Project}
    (hx : x ≠ []) (hbf : ∀ c ∈ x, isBreakChar c = false)
    (hp : p ∈ ps) (h : SubStr x (nav_item p)) :
    SubStr x (build_navigation_markup ps) := by
  have hpe : ps.isEmpty = false :=
    isEmpty_false_of_ne (by intro he; rw [he] at hp; cases hp)
  have h1 : SubStr x (indent_block (nav_item p) 2) := subStr_indent_block hx hbf h 2
  have h2 : SubStr x (joinNl (ps.map fun q => indent_block (nav_item q) 2)) :=
    subStr_trans h1 (subStr_joinNl (List.mem_map_of_mem _ hp))
  have h3 : (joinNl (ps.map fun q => indent_block (nav_item q) 2)).isEmpty = false :=
    isEmpty_false_of_ne (ne_nil_of_subStr hx h2)
  rcases subStr_to_line hx hbf _ h2 with ⟨l, hl, hsub⟩
  simp only [build_navigation_markup, hpe, Bool.false_eq_true, if_false, h3,
    Bool.not_false, if_true]
  exact subStr_trans hsub (subStr_joinNl
    (List.mem_cons_of_mem _ (List.mem_append_left _ hl)))

/-- Anchor element rendered for a project, as the spec describes it: href is
the escaped url, the visible text is the escaped name, and a truthy
description adds a title attribute holding the escaped description. -/
def anchorHtml (p : Project) : List Char :=
  ("<a href=\"".data) ++ escape p.url ++
    (if descTruthy p then
      ("\" title=\"".data) ++ escape (p.description.getD []) ++ ("\">".data)
    else ("\">".data)) ++
    escape p.name ++ ("</a>".data)

/-- Description span rendered after the anchor for a truthy description. -/
def descSpanHtml (p : Project) : List Char :=
  ("<span class=\"description\">".data) ++ escape (p.description.getD []) ++
    ("</span>".data)

/-- Rendered list item stated from the spec wording: anchor on its own
indented line, then the description span when present. -/
def navRendered (p : Project) : List Char :=
  if descTruthy p then
    ("<li>\n  ".data) ++ anchorHtml p ++ ("\n  ".data) ++ descSpanHtml p ++
      ("\n</li>".data)
  else ("<li>\n  ".data) ++ anchorHtml p ++ ("\n\n</li>".data)

lemma anchorHtml_ne_nil (p : Project) : anchorHtml p ≠ [] := by
  unfold anchorHtml
  intro h
  rcases List.append_eq_nil.1 h with ⟨h1, _⟩
  rcases List.append_eq_nil.1 h1 with ⟨h2, _⟩
  rcases List.append_eq_nil.1 h2 with ⟨h3, _⟩
  rcases List.append_eq_nil.1 h3 with ⟨h4, _⟩
  cases h4

lemma descSpanHtml_ne_nil (p : Project) : descSpanHtml p ≠ [] := by
  unfold descSpanHtml
  intro h
  rcases List.append_eq_nil.1 h with ⟨h1, _⟩
  rcases List.append_eq_nil.1 h1 with ⟨h2, _⟩
  cases h2

lemma anchorHtml_break_free (p : Project)
    (hn : ∀ c ∈ p.name, isBreakChar c = false)
    (hu : ∀ c ∈ p.url, isBreakChar c = false)
    (hd : ∀ d, p.description = some d → ∀ c ∈ d, isBreakChar c = false) :
    ∀ c ∈ anchorHtml p, isBreakChar c = false := by
  unfold anchorHtml
  refine bf_append (bf_append (bf_append (bf_append (by decide)
    (fun c hc => escape_break_free hu hc)) ?_)
    (fun c hc => escape_break_free hn hc)) (by decide)
  by_cases hdt : descTruthy p = true
  · rw [if_pos hdt]
    cases hde : p.description with
    | none => rw [descTruthy, hde] at hdt; cases hdt
    | some d =>
        refine bf_append (bf_append (by decide) ?_) (by decide)
        exact fun c hc => escape_break_free (hd d hde) hc
  · rw [if_neg hdt]
    decide

lemma descSpanHtml_break_free (p : Project)
    (hd : ∀ d, p.description = some d → ∀ c ∈ d, isBreakChar c = false) :
    ∀ c ∈ descSpanHtml p, isBreakChar c = false := by
  unfold descSpanHtml
  refine bf_append (bf_append (by decide) ?_) (by decide)
  cases hde : p.description with
  | none => simp [Option.getD]; decide
  | some d =>
      exact fun c hc => escape_break_free (hd d hde) hc

/-- Sample project whose fields contain markup-significant characters. -/
def sampleProject : Project :=
  ⟨("A<B".data), ("x\"y&z".data), some ("d&e".data)⟩

/-- C1: every HTML-significant character of a project's name, url or
description appears HTML-escaped in the rendered fragment, in the anchor's
href, its visible text, its title attribute, and the description span.
Formally: escaping rewrites each character to its entity (escape equals the
character-wise escChar expansion), escaped text never contains a raw open
angle bracket or double quote, the rendered list item equals the spec-side
template navRendered with the escape of each field in the four positions, and
the anchor and description span built from the escaped fields occur verbatim
inside build_navigation_markup of any project sequence containing the
project.  The fields are assumed line-break-free, as line text. -/
theorem nav_escaping (ps : List Project) (p : Project) (hp : p ∈ ps)
    (hn : ∀ c ∈ p.name, isBreakChar c = false)
    (hu : ∀ c ∈ p.url, isBreakChar c = false)
    (hd : ∀ d, p.description = some d → ∀ c ∈ d, isBreakChar c = false) :
    (∀ s, escape s = escMap s) ∧
    (∀ s c, c ∈ escape s → c ≠ '<' ∧ c ≠ '"') ∧
    nav_item p = navRendered p ∧
    SubStr (anchorHtml p) (build_navigation_markup ps) ∧
    (descTruthy p = true → SubStr (descSpanHtml p) (build_navigation_markup ps)) := by
  have htemp : nav_item p = navRendered p := by
    by_cases hdt : descTruthy p = true
    · cases hde : p.description with
      | none => simp [descTruthy, hde] at hdt
      | some d =>
          have hdt2 := hdt
          simp only [descTruthy, hde] at hdt2
          have hdne : d ≠ [] := by
            intro he; subst he; simp at hdt2
          rw [nav_item_desc p d hde hdne hn hu (hd d hde)]
          rw [navRendered, if_pos hdt, anchorHtml, if_pos hdt, descSpanHtml, hde]
          simp [List.append_assoc]
    · rw [Bool.not_eq_true] at hdt
      rw [nav_item_nodesc p hdt hn hu]
      rw [navRendered, if_neg (by rw [hdt]; simp), anchorHtml,
        if_neg (by rw [hdt]; simp)]
      simp [List.append_assoc]
  refine ⟨escape_eq_escMap, fun s c hc => escape_no_raw hc, htemp, ?_, ?_⟩
  · apply subStr_frag (anchorHtml_ne_nil p) (anchorHtml_break_free p hn hu hd) hp
    rw [htemp]
    unfold navRendered
    by_cases hdt : descTruthy p = true
    · rw [if_pos hdt]
      exact ⟨("<li>\n  ".data),
        ("\n  ".data) ++ descSpanHtml p ++ ("\n</li>".data), by simp [List.append_assoc]⟩
    · rw [if_neg hdt]
      exact ⟨("<li>\n  ".data), ("\n\n</li>".data), by simp [List.append_assoc]⟩
  · intro hdt
    apply subStr_frag (descSpanHtml_ne_nil p) (descSpanHtml_break_free p hd) hp
    rw [htemp]
    unfold navRendered
    rw [if_pos hdt]
    exact ⟨("<li>\n  ".data) ++ anchorHtml p ++ ("\n  ".data), ("\n</li>".data),
      by simp [List.append_assoc]⟩

/-- Witness for nav_escaping at a concrete project whose name, url and
description each contain markup-significant characters. -/
theorem nav_escaping_witness :
    (∀ s, escape s = escMap s) ∧
    (∀ s c, c ∈ escape s → c ≠ '<' ∧ c ≠ '"') ∧
    nav_item sampleProject = navRendered sampleProject ∧
    SubStr (anchorHtml sampleProject) (build_navigation_markup [sampleProject]) ∧
    (descTruthy sampleProject = true →
      SubStr (descSpanHtml sampleProject) (build_navigation_markup [sampleProject])) :=
  nav_escaping [sampleProject] sampleProject (List.mem_cons_self _ _)
    (by decide) (by decide)
    (fun d hd => by
      have h2 : ("d&e".data) = d := Option.some.inj hd
      rw [← h2]; decide)

def START_MARKER : List Char := ("<!-- PROJECT_NAV_START -->".data)

def END_MARKER : List Char := ("<!-- PROJECT_NAV_END -->".data)

/-- Index of the first occurrence of a literal pattern, None when absent: the
leftmost-match rule of re.search for a literal. -/
def firstOccur (pat : List Char) : List Char → Option Nat
  | [] => if leadsWith pat [] then some 0 else none
  | s@(_ :: rest) =>
    if leadsWith pat s then some 0
    else (firstOccur pat rest).map (fun n => n + 1)

/-- Trailing run of spaces and tabs of a string. -/
def trailingWs (s : List Char) : List Char := (s.reverse.takeWhile isSpaceTab).reverse

structure SpliceMatch where
  start : Nat
  stop : Nat
  indent : List Char
deriving DecidableEq, Repr

/-- Search for the pattern indent-group, start marker, lazy gap, end marker
with DOTALL, as update_homepage compiles it: the leftmost match uses the first
start-marker occurrence (the greedy space-and-tab group extends it backwards
over the run immediately before the marker, which only moves the match start
leftwards, never to a different marker) and the lazy inner group ends it at
the first end-marker occurrence after the start marker. -/
def findMatch (content : List Char) : Option SpliceMatch :=
  match firstOccur START_MARKER content with
  | none => none
  | some j =>
    match firstOccur END_MARKER (content.drop (j + START_MARKER.length)) with
    | none => none
    | some d =>
      let ind := trailingWs (content.take j)
      some ⟨j - ind.length, j + START_MARKER.length + d + END_MARKER.length, ind⟩

/-- Per-line re-indentation applied to the generated markup before insertion:
nonempty lines receive the indent, empty lines stay empty. -/
def indentLine (ind l : List Char) : List Char := if !l.isEmpty then ind ++ l else l

/-- Markup re-indented to the indentation captured by the match. -/
def indentedMarkup (ind markup : List Char) : List Char :=
  joinNl ((pySplitlines markup).map (indentLine ind))

/-- Model of update_homepage: locate the markers and replace the matched span
by the indented markup framed by the two markers; None models the SystemExit
raised when the markers are missing. -/
def update_homepage (content markup : List Char) : Option (List Char) :=
  match findMatch content with
  | none => none
  | some m =>
    some (content.take m.start ++
      (m.indent ++ START_MARKER ++ '\n' :: indentedMarkup m.indent markup ++
        '\n' :: m.indent ++ END_MARKER) ++
      content.drop m.stop)

lemma firstOccur_some_iff (pat : List Char) :
    ∀ (s : List Char) (j : Nat), firstOccur pat s = some j ↔
      (leadsWith pat (s.drop j) = true ∧
        ∀ q < j, leadsWith pat (s.drop q) = false) := by
  intro s
  induction s with
  | nil =>
      intro j
      by_cases h : leadsWith pat [] = true
      · simp only [firstOccur, h, if_true]
        constructor
        · intro he
          injection he with he
          subst he
          exact ⟨h, fun q hq => absurd hq (by omega)⟩
        · rintro ⟨h1, h2⟩
          cases j with
          | zero => rfl
          | succ n =>
              have := h2 0 (by omega)
              rw [List.drop_nil] at this
              rw [this] at h
              cases h
      · simp only [firstOccur, h, if_false]
        constructor
        · intro he; cases he
        · rintro ⟨h1, h2⟩
          rw [List.drop_nil] at h1
          exact absurd h1 h
  | cons c rest ih =>
      intro j
      by_cases h : leadsWith pat (c :: rest) = true
      · simp only [firstOccur, h, if_true]
        constructor
        · intro he
          injection he with he
          subst he
          exact ⟨h, fun q hq => absurd hq (by omega)⟩
        · rintro ⟨h1, h2⟩
          cases j with
          | zero => rfl
          | succ n =>
              have := h2 0 (by omega)
              rw [List.drop_zero] at this
              rw [this] at h
              cases h
      · simp only [firstOccur, h, if_false]
        constructor
        · intro he
          rcases Option.map_eq_some'.1 he with ⟨j', hj', hjj⟩
          subst hjj
          rcases (ih j').1 hj' with ⟨h1, h2⟩
          refine ⟨h1, ?_⟩
          intro q hq
          cases q with
          | zero =>
              rw [List.drop_zero]
              rw [Bool.not_eq_true] at h
              exact h
          | succ q' => exact h2 q' (by omega)
        · rintro ⟨h1, h2⟩
          cases j with
          | zero =>
              rw [List.drop_zero] at h1
              exact absurd h1 h
          | succ j' =>
              have hj' : firstOccur pat rest = some j' := by
                rw [ih j']
                refine ⟨h1, ?_⟩
                intro q hq
                exact h2 (q + 1) (by omega)
              rw [hj']
              rfl

lemma firstOccur_none_iff (pat : List Char) :
    ∀ s : List Char, firstOccur pat s = none ↔
      ∀ q, leadsWith pat (s.drop q) = false := by
  intro s
  induction s with
  | nil =>
      by_cases h : leadsWith pat [] = true
      · simp only [firstOccur, h, if_true]
        constructor
        · intro he; cases he
        · intro hq
          have := hq 0
          rw [List.drop_nil] at this
          rw [this] at h
          cases h
      · simp only [firstOccur, h, if_false]
        constructor
        · intro _ q
          rw [List.drop_nil, Bool.not_eq_true] at *
          exact h
        · intro _; rfl
  | cons c rest ih =>
      by_cases h : leadsWith pat (c :: rest) = true
      · simp only [firstOccur, h, if_true]
        constructor
        · intro he; cases he
        · intro hq
          have := hq 0
          rw [List.drop_zero] at this
          rw [this] at h
          cases h
      · simp only [firstOccur, h, if_false]
        constructor
        · intro he q
          have hrest : firstOccur pat rest = none := by
            cases hx : firstOccur pat rest with
            | none => rfl
            | some v => rw [hx] at he; cases he
          cases q with
          | zero =>
              rw [List.drop_zero, Bool.not_eq_true] at *
              exact h
          | succ q' => exact (ih.1 hrest) q'
        · intro hq
          have hrest : firstOccur pat rest = none :=
            ih.2 (fun q => hq (q + 1))
          rw [hrest]
          rfl

lemma trailingWs_all (s : List Char) : ∀ c ∈ trailingWs s, isSpaceTab c = true := by
  intro c hc
  rw [trailingWs, List.mem_reverse] at hc
  exact List.mem_takeWhile_imp hc

lemma dropWhile_head_false (p : Char → Bool) :
    ∀ l : List Char, l.dropWhile p = [] ∨
      ∃ x xs, l.dropWhile p = x :: xs ∧ p x = false := by
  intro l
  induction l with
  | nil => exact Or.inl rfl
  | cons c rest ih =>
      by_cases hc : p c = true
      · rw [List.dropWhile_cons, hc]
        simpa using ih
      · rw [Bool.not_eq_true] at hc
        rw [List.dropWhile_cons, hc]
        exact Or.inr ⟨c, rest, by simp, hc⟩

lemma trailingWs_decomp (s : List Char) :
    ∃ pre, s = pre ++ trailingWs s ∧
      (pre = [] ∨ ∃ c pre2, pre = pre2 ++ [c] ∧ isSpaceTab c = false) := by
  refine ⟨(s.reverse.dropWhile isSpaceTab).reverse, ?_, ?_⟩
  · rw [trailingWs, ← List.reverse_append, List.takeWhile_append_dropWhile,
      List.reverse_reverse]
  · rcases dropWhile_head_false isSpaceTab s.reverse with h | ⟨x, xs, hx, hpx⟩
    · left; rw [h]; rfl
    · right
      exact ⟨x, xs.reverse, by rw [hx]; simp, hpx⟩

lemma trailingWs_append (pre ind : List Char)
    (hind : ∀ c ∈ ind, isSpaceTab c = true)
    (hpre : pre = [] ∨ ∃ c pre2, pre = pre2 ++ [c] ∧ isSpaceTab c = false) :
    trailingWs (pre ++ ind) = ind := by
  rw [trailingWs, List.reverse_append,
    List.takeWhile_append_of_pos (by intro c hc; exact hind c (List.mem_reverse.1 hc))]
  rcases hpre with h | ⟨c, pre2, hc, hpc⟩
  · rw [h]
    simp
  · rw [hc]
    simp only [List.reverse_append, List.reverse_cons, List.reverse_nil,
      List.nil_append, List.singleton_append, List.takeWhile_cons, hpc]
    simp

/-- Characterisation of the match found by update_homepage: the document
splits as pre, indent, start marker, inner gap, end marker, post; the indent
is the space-and-tab run immediately before the first start-marker occurrence
(no occurrence starts earlier), and the gap contains no end-marker occurrence
(the lazy group stops at the first one). -/
lemma findMatch_spec {content : List Char} {m : SpliceMatch}
    (h : findMatch content = some m) :
    ∃ pre inner post,
      content = pre ++ m.indent ++ START_MARKER ++ inner ++ END_MARKER ++ post ∧
      pre.length = m.start ∧
      m.stop = m.start + m.indent.length + START_MARKER.length + inner.length +
        END_MARKER.length ∧
      (∀ c ∈ m.indent, isSpaceTab c = true) ∧
      (pre = [] ∨ ∃ c pre2, pre = pre2 ++ [c] ∧ isSpaceTab c = false) ∧
      (∀ q < m.start + m.indent.length,
        leadsWith START_MARKER (content.drop q) = false) ∧
      (∀ q < inner.length,
        leadsWith END_MARKER
          (content.drop (m.start + m.indent.length + START_MARKER.length + q))
          = false) := by
  unfold findMatch at h
  cases hS : firstOccur START_MARKER content with
  | none => rw [hS] at h; cases h
  | some j =>
      rw [hS] at h
      dsimp only at h
      cases hE : firstOccur END_MARKER (content.drop (j + START_MARKER.length)) with
      | none => rw [hE] at h; cases h
      | some dd =>
          rw [hE] at h
          dsimp only at h
          injection h with h
          subst h
          rcases (firstOccur_some_iff _ _ _).1 hS with ⟨hS1, hS2⟩
          rcases (firstOccur_some_iff _ _ _).1 hE with ⟨hE1, hE2⟩
          rw [List.drop_drop] at hE1
          rcases trailingWs_decomp (content.take j) with ⟨pre, hdec, hprew⟩
          have hj : j ≤ content.length := by
            by_contra hjc
            push_neg at hjc
            rw [List.drop_eq_nil_of_le (by omega)] at hS1
            rw [show leadsWith START_MARKER [] = false from by decide] at hS1
            cases hS1
          have htl : (content.take j).length = j := by
            rw [List.length_take]; omega
          rcases (leadsWith_iff _ _).1 hS1 with ⟨t, ht⟩
          rcases (leadsWith_iff _ _).1 hE1 with ⟨post, hpost⟩
          have htd : content.drop (j + START_MARKER.length) = t := by
            rw [← List.drop_drop, ht, List.drop_left]
          have hpost2 : t.drop dd = END_MARKER ++ post := by
            rw [← htd, List.drop_drop]
            exact hpost
          have hEl : END_MARKER.length = 24 := by decide
          have hdd : dd ≤ t.length := by
            by_contra hddc
            push_neg at hddc
            rw [List.drop_eq_nil_of_le (by omega)] at hpost2
            have hlen := congrArg List.length hpost2
            simp at hlen
            omega
          have htdec : t = t.take dd ++ END_MARKER ++ post := by
            conv_lhs => rw [← List.take_append_drop dd t]
            rw [hpost2, List.append_assoc]
          have hinl : (t.take dd).length = dd := by
            rw [List.length_take]; omega
          have hil := congrArg List.length hdec
          rw [htl, List.length_append] at hil
          have hcontent : content =
              pre ++ trailingWs (content.take j) ++ START_MARKER ++ t.take dd ++
                END_MARKER ++ post := by
            conv_lhs => rw [← List.take_append_drop j content, hdec, ht]
            conv_lhs => rw [htdec]
            simp [List.append_assoc]
          refine ⟨pre, t.take dd, post, hcontent, ?_, ?_, trailingWs_all _, hprew,
            ?_, ?_⟩
          · simp only
            omega
          · simp only
            rw [hinl]
            omega
          · intro q hq
            simp only at hq
            exact hS2 q (by omega)
          · intro q hq
            rw [hinl] at hq
            have h2 := hE2 q hq
            rw [List.drop_drop] at h2
            rw [show j - (trailingWs (content.take j)).length +
                (trailingWs (content.take j)).length + START_MARKER.length + q =
                j + START_MARKER.length + q from by omega]
            exact h2

/-- C3: splicing rewrites exactly the first (leftmost, lazy, newline-spanning)
match of the span from the start marker's indentation run through the end
marker: the document splits as pre, indent, start marker, inner, end marker,
post, where no start-marker occurrence begins before the matched one, the
inner gap contains no end-marker occurrence, and the spliced output keeps pre
and post byte-for-byte while replacing only that span. -/
theorem splice_frame (content markup : List Char) (m : SpliceMatch)
    (h : findMatch content = some m) :
    ∃ pre inner post,
      content = pre ++ m.indent ++ START_MARKER ++ inner ++ END_MARKER ++ post ∧
      update_homepage content markup =
        some (pre ++ m.indent ++ START_MARKER ++
          '\n' :: indentedMarkup m.indent markup ++
          '\n' :: m.indent ++ END_MARKER ++ post) ∧
      (∀ q < pre.length + m.indent.length,
        leadsWith START_MARKER (content.drop q) = false) ∧
      (∀ q < inner.length,
        leadsWith END_MARKER
          (content.drop (pre.length + m.indent.length + START_MARKER.length + q))
          = false) ∧
      (∀ c ∈ m.indent, isSpaceTab c = true) ∧
      (pre = [] ∨ ∃ c pre2, pre = pre2 ++ [c] ∧ isSpaceTab c = false) := by
  rcases findMatch_spec h with
    ⟨pre, inner, post, hc, hpl, hstop, hws, hpw, hfirst, hlazy⟩
  have hc2 : content = pre ++ (m.indent ++ (START_MARKER ++ (inner ++
      (END_MARKER ++ post)))) := by
    rw [hc]; simp [List.append_assoc]
  have htake : content.take m.start = pre := by
    rw [← hpl, hc2, List.take_left]
  have hdrop : content.drop m.stop = post := by
    have hbl : m.stop = (pre ++ m.indent ++ START_MARKER ++ inner ++
        END_MARKER).length := by
      simp only [List.length_append]
      omega
    rw [hbl, hc, List.drop_left]
  have hupd : update_homepage content markup =
      some (pre ++ m.indent ++ START_MARKER ++
        '\n' :: indentedMarkup m.indent markup ++
        '\n' :: m.indent ++ END_MARKER ++ post) := by
    unfold update_homepage
    rw [h]
    dsimp only
    rw [htake, hdrop]
    congr 1
    simp [List.append_assoc]
  refine ⟨pre, inner, post, hc, hupd, ?_, ?_, hws, hpw⟩
  · rw [hpl]; exact hfirst
  · rw [hpl]; exact hlazy

/-- Witness for splice_frame: a concrete document with two-space indentation
before the markers and a three-line fragment. -/
theorem splice_frame_witness :
    ∃ pre inner post,
      (("<div>\n  ".data) ++ START_MARKER ++ ("\nold\n  ".data) ++ END_MARKER ++
          ("\n</div>".data)) =
        pre ++ ("  ".data) ++ START_MARKER ++ inner ++ END_MARKER ++ post ∧
      update_homepage (("<div>\n  ".data) ++ START_MARKER ++ ("\nold\n  ".data) ++
          END_MARKER ++ ("\n</div>".data)) (("<p>a</p>\n\n<p>b</p>".data)) =
        some (pre ++ ("  ".data) ++ START_MARKER ++
          '\n' :: indentedMarkup ("  ".data) (("<p>a</p>\n\n<p>b</p>".data)) ++
          '\n' :: ("  ".data) ++ END_MARKER ++ post) ∧
      (∀ q < pre.length + ("  ".data).length,
        leadsWith START_MARKER
          ((("<div>\n  ".data) ++ START_MARKER ++ ("\nold\n  ".data) ++ END_MARKER ++
            ("\n</div>".data)).drop q) = false) ∧
      (∀ q < inner.length,
        leadsWith END_MARKER
          ((("<div>\n  ".data) ++ START_MARKER ++ ("\nold\n  ".data) ++ END_MARKER ++
            ("\n</div>".data)).drop
            (pre.length + ("  ".data).length + START_MARKER.length + q)) = false) ∧
      (∀ c ∈ ("  ".data), isSpaceTab c = true) ∧
      (pre = [] ∨ ∃ c pre2, pre = pre2 ++ [c] ∧ isSpaceTab c = false) :=
  splice_frame (("<div>\n  ".data) ++ START_MARKER ++ ("\nold\n  ".data) ++
    END_MARKER ++ ("\n</div>".data)) (("<p>a</p>\n\n<p>b</p>".data))
    ⟨6, 65, ("  ".data)⟩ (by decide)

/-- Counterexample to C4 as stated: when text precedes the start marker on
its line, the code indents with the space-and-tab run immediately before the
marker, not with the leading whitespace of the line containing the marker.
Here the marker's line starts with the letter x, so its leading whitespace is
empty, yet the spliced output indents the fragment line, the end marker (and
keeps the run before the start marker) with one space. -/
theorem splice_indent_cex :
    update_homepage (("x ".data) ++ START_MARKER ++ '\n' :: END_MARKER)
        (("<p>hi</p>".data)) =
      some (("x ".data) ++ START_MARKER ++ '\n' :: (" <p>hi</p>".data) ++
        '\n' :: (" ".data) ++ END_MARKER) ∧
    leadingWs (("x ".data) ++ START_MARKER ++ '\n' :: END_MARKER) = [] ∧
    update_homepage (("x ".data) ++ START_MARKER ++ '\n' :: END_MARKER)
        (("<p>hi</p>".data)) ≠
      some (("x ".data) ++ START_MARKER ++ '\n' :: ("<p>hi</p>".data) ++
        '\n' :: END_MARKER) := by
  refine ⟨by decide, by decide, by decide⟩

/-- C4 amended: the spliced output prefixes the maximal space-and-tab run
immediately preceding the first start marker (which equals the leading
whitespace of the marker's line whenever only whitespace precedes the marker
on its line) to the start marker, the end marker, and every nonempty line of
the fragment, while empty fragment lines are left unindented. -/
theorem splice_indent_amended (content markup : List Char) (m : SpliceMatch)
    (h : findMatch content = some m) :
    update_homepage content markup =
      some (content.take m.start ++ m.indent ++ START_MARKER ++
        '\n' :: joinNl ((pySplitlines markup).map
          (fun l => if !l.isEmpty then m.indent ++ l else l)) ++
        '\n' :: m.indent ++ END_MARKER ++ content.drop m.stop) ∧
    (∀ c ∈ m.indent, isSpaceTab c = true) ∧
    leadsWith START_MARKER (content.drop (m.start + m.indent.length)) = true ∧
    (content.take m.start = [] ∨
      ∃ c pre2, content.take m.start = pre2 ++ [c] ∧ isSpaceTab c = false) := by
  rcases findMatch_spec h with
    ⟨pre, inner, post, hc, hpl, hstop, hws, hpw, hfirst, hlazy⟩
  have hc2 : content = pre ++ (m.indent ++ (START_MARKER ++ (inner ++
      (END_MARKER ++ post)))) := by
    rw [hc]; simp [List.append_assoc]
  have htake : content.take m.start = pre := by
    rw [← hpl, hc2, List.take_left]
  refine ⟨?_, hws, ?_, ?_⟩
  · unfold update_homepage
    rw [h]
    dsimp only
    have he : joinNl ((pySplitlines markup).map
        (fun l => if !l.isEmpty then m.indent ++ l else l)) =
        indentedMarkup m.indent markup := rfl
    rw [he]
    congr 1
    simp [List.append_assoc]
  · have hd : content.drop (m.start + m.indent.length) =
        START_MARKER ++ (inner ++ (END_MARKER ++ post)) := by
      have hlen : m.start + m.indent.length = (pre ++ m.indent).length := by
        simp only [List.length_append]; omega
      rw [hlen, show content = (pre ++ m.indent) ++ (START_MARKER ++ (inner ++
        (END_MARKER ++ post))) from by rw [hc]; simp [List.append_assoc],
        List.drop_left]
    rw [hd]
    exact leadsWith_append _ _
  · rw [htake]
    exact hpw

/-- Witness for splice_indent_amended on a concrete document whose markers
are indented by two spaces and a fragment containing an empty line. -/
theorem splice_indent_amended_witness :
    update_homepage (("<div>\n  ".data) ++ START_MARKER ++ ("\nold\n  ".data) ++
        END_MARKER ++ ("\n</div>".data)) (("<p>a</p>\n\n<p>b</p>".data)) =
      some ((("<div>\n  ".data) ++ START_MARKER ++ ("\nold\n  ".data) ++
          END_MARKER ++ ("\n</div>".data)).take 6 ++ ("  ".data) ++ START_MARKER ++
        '\n' :: joinNl ((pySplitlines (("<p>a</p>\n\n<p>b</p>".data))).map
          (fun l => if !l.isEmpty then ("  ".data) ++ l else l)) ++
        '\n' :: ("  ".data) ++ END_MARKER ++
        (("<div>\n  ".data) ++ START_MARKER ++ ("\nold\n  ".data) ++
          END_MARKER ++ ("\n</div>".data)).drop 65) ∧
    (∀ c ∈ ("  ".data), isSpaceTab c = true) ∧
    leadsWith START_MARKER ((("<div>\n  ".data) ++ START_MARKER ++
      ("\nold\n  ".data) ++ END_MARKER ++ ("\n</div>".data)).drop
        (6 + ("  ".data).length)) = true ∧
    ((("<div>\n  ".data) ++ START_MARKER ++ ("\nold\n  ".data) ++ END_MARKER ++
        ("\n</div>".data)).take 6 = [] ∨
      ∃ c pre2, (("<div>\n  ".data) ++ START_MARKER ++ ("\nold\n  ".data) ++
        END_MARKER ++ ("\n</div>".data)).take 6 = pre2 ++ [c] ∧
        isSpaceTab c = false) :=
  splice_indent_amended (("<div>\n  ".data) ++ START_MARKER ++ ("\nold\n  ".data) ++
    END_MARKER ++ ("\n</div>".data)) (("<p>a</p>\n\n<p>b</p>".data))
    ⟨6, 65, ("  ".data)⟩ (by decide)

lemma leadsWith_take (pat : List Char) :
    ∀ t : List Char, leadsWith pat t = leadsWith pat (t.take pat.length) := by
  induction pat with
  | nil => intro t; rfl
  | cons p ps ih =>
      intro t
      cases t with
      | nil => rfl
      | cons c cs =>
          simp only [List.length_cons, List.take_succ_cons, leadsWith]
          rw [ih cs]

/-- Occurrence testing only looks at the pattern-length window, so it
transfers between strings sharing a long enough prefix. -/
lemma leadsWith_drop_ext {s s2 : List Char} (pat : List Char) {L q : Nat}
    (hs : s.take L = s2.take L) (hq : q + pat.length ≤ L) :
    leadsWith pat (s.drop q) = leadsWith pat (s2.drop q) := by
  have key : ∀ u : List Char, u.take L = s.take L →
      (u.drop q).take pat.length = ((s.take L).drop q).take pat.length := by
    intro u hu
    rw [← hu, List.drop_take]
    rw [List.take_take, Nat.min_eq_left (by omega)]
  rw [leadsWith_take pat (s.drop q), leadsWith_take pat (s2.drop q),
    key s rfl, key s2 hs.symm]

lemma leadsWith_cons_false {p c : Char} {ps cs : List Char} (h : ¬ p = c) :
    leadsWith (p :: ps) (c :: cs) = false := by
  simp [leadsWith, h]

/-- Localisation of a newline-free substring of a join to one of the joined
parts. -/
lemma joinNl_subStr_inv {x : List Char} (hx : x ≠ []) (hnl : '\n' ∉ x) :
    ∀ ls : List (List Char), SubStr x (joinNl ls) → ∃ l ∈ ls, SubStr x l := by
  intro ls
  induction ls with
  | nil =>
      intro h
      exact absurd rfl (ne_nil_of_subStr hx h)
  | cons l ls2 ih =>
      intro h
      cases ls2 with
      | nil =>
          rw [joinNl_single] at h
          exact ⟨l, List.mem_cons_self _ _, h⟩
      | cons z zs =>
          rw [joinNl_cons _ _ (by simp)] at h
          rcases subStr_split_single hnl h with h2 | h2
          · exact ⟨l, List.mem_cons_self _ _, h2⟩
          · rcases ih h2 with ⟨l2, hl2, hsub⟩
            exact ⟨l2, List.mem_cons_of_mem _ hl2, hsub⟩

/-- Occurrence of a pattern with a non-whitespace head inside an
indentation-prefixed line lies in the line itself. -/
lemma subStr_strip_ws {x : List Char} {c0 : Char} {x0 : List Char}
    (hx : x = c0 :: x0) (hc0 : isSpaceTab c0 = false) :
    ∀ ind l : List Char, (∀ c ∈ ind, isSpaceTab c = true) →
      SubStr x (ind ++ l) → SubStr x l := by
  intro ind
  induction ind with
  | nil => intro l _ h; simpa using h
  | cons c ind2 ih =>
      intro l hws h
      rcases h with ⟨a, b, e⟩
      cases a with
      | nil =>
          rw [hx] at e
          simp only [List.nil_append, List.cons_append] at e
          injection e with e1 _
          rw [← e1] at hc0
          rw [hws c (List.mem_cons_self _ _)] at hc0
          cases hc0
      | cons d a2 =>
          simp only [List.cons_append] at e
          injection e with _ e2
          exact ih l (fun c hc => hws c (List.mem_cons_of_mem _ hc)) ⟨a2, b, e2⟩

/-- Text of the end marker split at its head. -/
lemma endMarker_head : END_MARKER = '<' :: ("!-- PROJECT_NAV_END -->".data) := rfl

/-- Absence of the end marker from the re-indented markup, given that the raw
markup does not contain it. -/
lemma endMarker_not_in_indented {ind markup : List Char}
    (hws : ∀ c ∈ ind, isSpaceTab c = true)
    (hfree : hasSub END_MARKER markup = false) :
    ¬ SubStr END_MARKER (indentedMarkup ind markup) := by
  intro h
  have hne : END_MARKER ≠ [] := by decide
  have hnl : '\n' ∉ END_MARKER := by decide
  rcases joinNl_subStr_inv hne hnl _ h with ⟨l2, hl2, hsub⟩
  rcases List.mem_map.1 hl2 with ⟨l, hl, hfl⟩
  subst hfl
  unfold indentLine at hsub
  by_cases hle : l.isEmpty
  · rw [hle] at hsub
    simp only [Bool.not_true, Bool.false_eq_true, if_false] at hsub
    have : l = [] := by
      cases l with
      | nil => rfl
      | cons a b => cases hle
    rw [this] at hsub
    exact (ne_nil_of_subStr hne hsub) rfl
  · rw [isEmpty_false_of_ne (fun he => hle (by rw [he]; rfl))] at hsub
    simp only [Bool.not_false, if_true] at hsub
    have hsub2 := subStr_strip_ws endMarker_head (by decide) ind l hws hsub
    have := line_subStr markup l hl
    have hmk : SubStr END_MARKER markup := subStr_trans hsub2 this
    rw [← hasSub_iff] at hmk
    rw [hmk] at hfree
    cases hfree

/-- Computation of update_homepage from a decomposition of the match. -/
lemma update_eq {content : List Char} (markup : List Char) {m : SpliceMatch}
    {pre inner post : List Char}
    (h : findMatch content = some m)
    (hc : content = pre ++ m.indent ++ START_MARKER ++ inner ++ END_MARKER ++ post)
    (hpl : pre.length = m.start)
    (hstop : m.stop = m.start + m.indent.length + START_MARKER.length +
      inner.length + END_MARKER.length) :
    update_homepage content markup =
      some (pre ++ m.indent ++ START_MARKER ++
        '\n' :: indentedMarkup m.indent markup ++
        '\n' :: m.indent ++ END_MARKER ++ post) := by
  have hc2 : content = pre ++ (m.indent ++ (START_MARKER ++ (inner ++
      (END_MARKER ++ post)))) := by
    rw [hc]; simp [List.append_assoc]
  have htake : content.take m.start = pre := by
    rw [← hpl, hc2, List.take_left]
  have hdrop : content.drop m.stop = post := by
    have hbl : m.stop = (pre ++ m.indent ++ START_MARKER ++ inner ++
        END_MARKER).length := by
      simp only [List.length_append]
      omega
    rw [hbl, hc, List.drop_left]
  unfold update_homepage
  rw [h]
  dsimp only
  rw [htake, hdrop]
  congr 1
  simp [List.append_assoc]

/-- Presence of the marker pair in order, possibly with arbitrary content
spanning multiple lines in between: the condition the spec requires of the
target document. -/
def HasMarkerPair (doc : List Char) : Prop :=
  ∃ i k, leadsWith START_MARKER (doc.drop i) = true ∧
    i + START_MARKER.length ≤ k ∧ leadsWith END_MARKER (doc.drop k) = true

/-- Success of the marker search is equivalent to the presence of the ordered
marker pair. -/
lemma findMatch_isSome_iff (doc : List Char) :
    (∃ m, findMatch doc = some m) ↔ HasMarkerPair doc := by
  constructor
  · rintro ⟨m, hm⟩
    unfold findMatch at hm
    cases hS : firstOccur START_MARKER doc with
    | none => rw [hS] at hm; cases hm
    | some j =>
        rw [hS] at hm
        dsimp only at hm
        cases hE : firstOccur END_MARKER (doc.drop (j + START_MARKER.length)) with
        | none => rw [hE] at hm; cases hm
        | some dd =>
            rcases (firstOccur_some_iff _ _ _).1 hS with ⟨hS1, _⟩
            rcases (firstOccur_some_iff _ _ _).1 hE with ⟨hE1, _⟩
            rw [List.drop_drop] at hE1
            exact ⟨j, j + START_MARKER.length + dd, hS1, by omega, hE1⟩
  · rintro ⟨i, k, hi, hik, hk⟩
    cases hS : firstOccur START_MARKER doc with
    | none =>
        rw [firstOccur_none_iff] at hS
        rw [hS i] at hi
        cases hi
    | some j =>
        rcases (firstOccur_some_iff _ _ _).1 hS with ⟨hS1, hS2⟩
        have hji : j ≤ i := by
          by_contra hc
          push_neg at hc
          rw [hS2 i hc] at hi
          cases hi
        cases hE : firstOccur END_MARKER (doc.drop (j + START_MARKER.length)) with
        | none =>
            rw [firstOccur_none_iff] at hE
            have := hE (k - (j + START_MARKER.length))
            rw [List.drop_drop,
              show j + START_MARKER.length + (k - (j + START_MARKER.length)) = k
                from by omega] at this
            rw [this] at hk
            cases hk
        | some dd =>
            refine ⟨⟨j - (trailingWs (doc.take j)).length,
              j + START_MARKER.length + dd + END_MARKER.length,
              trailingWs (doc.take j)⟩, ?_⟩
            unfold findMatch
            rw [hS]
            dsimp only
            rw [hE]

/-- Match found in a freshly spliced document: the first start marker is the
spliced one with the same indentation, and when the markup is free of the end
marker, the lazy gap ends at the spliced closing marker. -/
lemma findMatch_after_splice (markup pre ind post : List Char)
    (hws : ∀ c ∈ ind, isSpaceTab c = true)
    (hpw : pre = [] ∨ ∃ c pre2, pre = pre2 ++ [c] ∧ isSpaceTab c = false)
    (hnoS : ∀ q < pre.length + ind.length,
      leadsWith START_MARKER ((pre ++ ind ++ START_MARKER ++
        '\n' :: indentedMarkup ind markup ++ '\n' :: ind ++ END_MARKER ++
        post).drop q) = false)
    (hfree : hasSub END_MARKER markup = false) :
    findMatch (pre ++ ind ++ START_MARKER ++
        '\n' :: indentedMarkup ind markup ++ '\n' :: ind ++ END_MARKER ++ post) =
      some ⟨pre.length,
        pre.length + ind.length + START_MARKER.length +
          (1 + (indentedMarkup ind markup).length + 1 + ind.length) +
          END_MARKER.length, ind⟩ := by
  have hEl : END_MARKER.length = 24 := by decide
  set IM := indentedMarkup ind markup with hIM
  set D := pre ++ ind ++ START_MARKER ++ '\n' :: IM ++ '\n' :: ind ++
    END_MARKER ++ post with hD
  have hSocc : leadsWith START_MARKER (D.drop (pre.length + ind.length)) = true := by
    rw [show D = (pre ++ ind) ++ (START_MARKER ++ ('\n' :: IM ++ '\n' :: ind ++
      END_MARKER ++ post)) from by rw [hD]; simp [List.append_assoc],
      show pre.length + ind.length = (pre ++ ind).length from by simp,
      List.drop_left]
    exact leadsWith_append _ _
  have hS : firstOccur START_MARKER D = some (pre.length + ind.length) :=
    (firstOccur_some_iff _ _ _).2 ⟨hSocc, hnoS⟩
  have hT : D.drop (pre.length + ind.length + START_MARKER.length) =
      '\n' :: IM ++ '\n' :: ind ++ END_MARKER ++ post := by
    rw [show D = (pre ++ ind ++ START_MARKER) ++ ('\n' :: IM ++ '\n' :: ind ++
      END_MARKER ++ post) from by rw [hD]; simp [List.append_assoc],
      show pre.length + ind.length + START_MARKER.length =
        (pre ++ ind ++ START_MARKER).length from by
          simp only [List.length_append],
      List.drop_left]
  have hEocc : leadsWith END_MARKER
      (('\n' :: IM ++ '\n' :: ind ++ END_MARKER ++ post).drop
        (1 + IM.length + 1 + ind.length)) = true := by
    rw [show '\n' :: IM ++ '\n' :: ind ++ END_MARKER ++ post =
      (('\n' :: IM) ++ ('\n' :: ind)) ++ (END_MARKER ++ post) from by
        simp [List.append_assoc],
      show 1 + IM.length + 1 + ind.length =
        (('\n' :: IM) ++ ('\n' :: ind)).length from by simp; omega,
      List.drop_left]
    exact leadsWith_append _ _
  have hEno : ∀ q < 1 + IM.length + 1 + ind.length,
      leadsWith END_MARKER
        (('\n' :: IM ++ '\n' :: ind ++ END_MARKER ++ post).drop q) = false := by
    intro q hq
    by_cases hq0 : q = 0
    · subst hq0
      rw [List.drop_zero,
        show '\n' :: IM ++ '\n' :: ind ++ END_MARKER ++ post =
          '\n' :: (IM ++ '\n' :: ind ++ END_MARKER ++ post) from by
          simp [List.append_assoc],
        endMarker_head]
      exact leadsWith_cons_false (by decide)
    by_cases hq1 : q ≤ IM.length
    · have hq1b : q - 1 ≤ IM.length := by omega
      have hdropT : ('\n' :: IM ++ '\n' :: ind ++ END_MARKER ++ post).drop q =
          IM.drop (q - 1) ++ ('\n' :: (ind ++ END_MARKER ++ post)) := by
        rw [show '\n' :: IM ++ '\n' :: ind ++ END_MARKER ++ post =
          '\n' :: (IM ++ ('\n' :: (ind ++ END_MARKER ++ post))) from by
          simp [List.append_assoc]]
        cases q with
        | zero => exact absurd rfl hq0
        | succ q2 =>
            rw [List.drop_succ_cons,
              List.drop_append_of_le_length (by omega)]
            rfl
      rw [hdropT]
      by_contra htru
      rw [Bool.not_eq_false] at htru
      rcases (leadsWith_iff _ _).1 htru with ⟨t, ht⟩
      by_cases hk : END_MARKER.length ≤ (IM.drop (q - 1)).length
      · have htake := congrArg (List.take END_MARKER.length) ht
        rw [List.take_append_of_le_length hk,
          show (END_MARKER ++ t).take END_MARKER.length = END_MARKER from
            List.take_left _ _] at htake
        apply endMarker_not_in_indented hws hfree
        rw [← hIM]
        refine ⟨IM.take (q - 1), (IM.drop (q - 1)).drop END_MARKER.length, ?_⟩
        conv_lhs => rw [← List.take_append_drop (q - 1) IM]
        have hsplit : IM.drop (q - 1) =
            END_MARKER ++ (IM.drop (q - 1)).drop END_MARKER.length := by
          conv_lhs => rw [← List.take_append_drop END_MARKER.length
            (IM.drop (q - 1))]
          rw [htake]
        conv_lhs => rw [hsplit]
        simp [List.append_assoc]
      · push_neg at hk
        have hdropE := congrArg (List.drop (IM.drop (q - 1)).length) ht
        rw [List.drop_left,
          List.drop_append_of_le_length (le_of_lt hk)] at hdropE
        rw [hEl] at hk
        have hne2 : END_MARKER.drop (IM.drop (q - 1)).length ≠ [] := by
          intro h0
          have hl0 := congrArg List.length h0
          rw [List.length_drop, hEl] at hl0
          simp only [List.length_nil] at hl0
          omega
        cases hcs : END_MARKER.drop (IM.drop (q - 1)).length with
        | nil => exact hne2 hcs
        | cons c cs =>
            rw [hcs, List.cons_append] at hdropE
            have hcnl : '\n' = c := by
              injection hdropE
            have hcin : c ∈ END_MARKER :=
              List.mem_of_mem_drop (by rw [hcs]; exact List.mem_cons_self c cs)
            rw [← hcnl] at hcin
            revert hcin
            decide
    by_cases hq2 : q = IM.length + 1
    · subst hq2
      rw [show '\n' :: IM ++ '\n' :: ind ++ END_MARKER ++ post =
        ('\n' :: IM) ++ ('\n' :: (ind ++ END_MARKER ++ post)) from by
          simp [List.append_assoc],
        show IM.length + 1 = ('\n' :: IM).length from by simp,
        List.drop_left, endMarker_head]
      exact leadsWith_cons_false (by decide)
    · have hbase : ('\n' :: IM ++ '\n' :: ind ++ END_MARKER ++ post).drop q =
          ind.drop (q - (IM.length + 2)) ++ (END_MARKER ++ post) := by
        have e1 : '\n' :: IM ++ '\n' :: ind ++ END_MARKER ++ post =
            (('\n' :: IM) ++ ['\n']) ++ (ind ++ (END_MARKER ++ post)) := by
          simp [List.append_assoc]
        have e2 : ((('\n' :: IM) ++ ['\n']) ++ (ind ++ (END_MARKER ++ post))).drop q =
            (ind ++ (END_MARKER ++ post)).drop (q - (IM.length + 2)) := by
          conv_lhs => rw [show q = (('\n' :: IM) ++ ['\n']).length +
            (q - (IM.length + 2)) from by simp; omega]
          rw [← List.drop_drop, List.drop_left]
        rw [e1, e2, List.drop_append_of_le_length (by omega)]
      rw [hbase]
      have hrr : q - (IM.length + 2) < ind.length := by omega
      cases hcs : ind.drop (q - (IM.length + 2)) with
      | nil =>
          have hl0 := congrArg List.length hcs
          rw [List.length_drop] at hl0
          simp at hl0
          omega
      | cons c cs =>
          rw [List.cons_append, endMarker_head]
          have hcin : c ∈ ind :=
            List.mem_of_mem_drop (by rw [hcs]; exact List.mem_cons_self c cs)
          have hcws := hws c hcin
          refine leadsWith_cons_false ?_
          intro he
          rw [← he] at hcws
          cases hcws
  have hE : firstOccur END_MARKER
      (('\n' :: IM ++ '\n' :: ind ++ END_MARKER ++ post)) =
        some (1 + IM.length + 1 + ind.length) := by
    rw [firstOccur_some_iff]
    exact ⟨hEocc, hEno⟩
  have htw : trailingWs (D.take (pre.length + ind.length)) = ind := by
    rw [show D = (pre ++ ind) ++ (START_MARKER ++ ('\n' :: IM ++ '\n' :: ind ++
      END_MARKER ++ post)) from by rw [hD]; simp [List.append_assoc],
      show pre.length + ind.length = (pre ++ ind).length from by simp,
      List.take_left]
    exact trailingWs_append pre ind hws hpw
  unfold findMatch
  rw [hS]
  dsimp only
  rw [hT, hE]
  dsimp only
  rw [htw]
  congr 2
  omega

/-- Scan for an adjacent character pair: true when no character equal to x is
immediately followed by one equal to y. -/
def noAdj (x y : Char) : List Char → Bool
  | [] => true
  | [_] => true
  | a :: b :: rest => !(a == x && b == y) && noAdj x y (b :: rest)

lemma noAdj_tail {x y c : Char} {l : List Char} (h : noAdj x y (c :: l) = true) :
    noAdj x y l = true := by
  cases l with
  | nil => rfl
  | cons d t =>
      rw [show noAdj x y (c :: d :: t) =
        (!(c == x && d == y) && noAdj x y (d :: t)) from rfl,
        Bool.and_eq_true] at h
      exact h.2

lemma noAdj_head {x y c d : Char} {t : List Char}
    (h : noAdj x y (c :: d :: t) = true) : ¬ (c = x ∧ d = y) := by
  rintro ⟨h1, h2⟩
  subst h1
  subst h2
  rw [show noAdj c d (c :: d :: t) =
    (!(c == c && d == d) && noAdj c d (d :: t)) from rfl] at h
  simp at h

lemma noAdj_no_pair {x y : Char} : ∀ (a l b : List Char),
    noAdj x y l = true → l = a ++ x :: y :: b → False := by
  intro a
  induction a with
  | nil =>
      intro l b h e
      rw [List.nil_append] at e
      subst e
      exact noAdj_head h ⟨rfl, rfl⟩
  | cons c a2 ih =>
      intro l b h e
      rw [List.cons_append] at e
      subst e
      exact ih _ b (noAdj_tail h) rfl

lemma noAdj_not_subStr {x y : Char} {l : List Char} (h : noAdj x y l = true) :
    ¬ SubStr [x, y] l := by
  rintro ⟨a, b, e⟩
  exact noAdj_no_pair a l b h (by rw [e]; simp)

lemma noAdj_cons {x y c : Char} {l : List Char} (hc : c ≠ x)
    (h : noAdj x y l = true) : noAdj x y (c :: l) = true := by
  cases l with
  | nil => rfl
  | cons d t =>
      rw [show noAdj x y (c :: d :: t) =
        (!(c == x && d == y) && noAdj x y (d :: t)) from rfl, h]
      have hcx : (c == x) = false := beq_eq_false_iff_ne.2 hc
      rw [hcx]
      rfl

lemma noAdj_of_no_y {x y : Char} {l : List Char} (h : y ∉ l) :
    noAdj x y l = true := by
  induction l with
  | nil => rfl
  | cons c t ih =>
      have ht := ih (fun hm => h (List.mem_cons_of_mem _ hm))
      cases t with
      | nil => rfl
      | cons d t2 =>
          rw [show noAdj x y (c :: d :: t2) =
            (!(c == x && d == y) && noAdj x y (d :: t2)) from rfl, ht]
          have hd : (d == y) = false := beq_eq_false_iff_ne.2
            (fun hdy => h (by
              rw [← hdy]
              exact List.mem_cons_of_mem c (List.mem_cons_self d t2)))
          rw [hd]
          simp

lemma noAdj_append_no_x {x y : Char} {a b : List Char} (ha : x ∉ a)
    (hb : noAdj x y b = true) : noAdj x y (a ++ b) = true := by
  induction a with
  | nil => simpa using hb
  | cons c a2 ih =>
      rw [List.cons_append]
      exact noAdj_cons
        (fun hc => ha (by rw [← hc]; exact List.mem_cons_self c a2))
        (ih (fun hm => ha (List.mem_cons_of_mem _ hm)))

lemma noAdj_append_safe {x y : Char} {a b : List Char} (hy : y ∉ a)
    (hlast : a.getLast? ≠ some x) (hb : noAdj x y b = true) :
    noAdj x y (a ++ b) = true := by
  induction a with
  | nil => simpa using hb
  | cons c a2 ih =>
      cases a2 with
      | nil =>
          have hc : c ≠ x := fun h => hlast (by subst h; rfl)
          rw [List.cons_append, List.nil_append]
          exact noAdj_cons hc hb
      | cons d a3 =>
          have hrec := ih (fun hm => hy (List.mem_cons_of_mem _ hm))
            (by rwa [List.getLast?_cons_cons] at hlast)
          have hd : (d == y) = false := beq_eq_false_iff_ne.2
            (fun hdy => hy (by
              rw [← hdy]
              exact List.mem_cons_of_mem c (List.mem_cons_self d a3)))
          rw [List.cons_append, List.cons_append]
          rw [List.cons_append] at hrec
          rw [show noAdj x y (c :: d :: (a3 ++ b)) =
            (!(c == x && d == y) && noAdj x y (d :: (a3 ++ b))) from rfl, hrec, hd]
          simp

lemma sp_not_mem {c : Char} (n : Nat) (hc : c ≠ ' ') : c ∉ sp n :=
  fun h => hc (List.eq_of_mem_replicate h)

lemma escape_no_lt (s : List Char) : '<' ∉ escape s :=
  fun h => (escape_no_raw h).1 rfl

lemma splitOnNl_ne_nil (s : List Char) : splitOnNl s ≠ [] := by
  cases s with
  | nil => simp [splitOnNl]
  | cons c rest => by_cases hc : c = '\n' <;> simp [splitOnNl, hc]

lemma joinNl_splitOnNl (s : List Char) : joinNl (splitOnNl s) = s := by
  induction s with
  | nil => rfl
  | cons c rest ih =>
      by_cases hc : c = '\n'
      · subst hc
        rw [show splitOnNl ('\n' :: rest) = [] :: splitOnNl rest from by
          simp [splitOnNl]]
        rw [joinNl_cons _ _ (splitOnNl_ne_nil rest), ih]
        rfl
      · rw [show splitOnNl (c :: rest) =
          (c :: (splitOnNl rest).headI) :: (splitOnNl rest).tail from by
            simp [splitOnNl, hc]]
        cases hs : splitOnNl rest with
        | nil => exact absurd hs (splitOnNl_ne_nil rest)
        | cons h0 t0 =>
            rw [hs] at ih
            cases t0 with
            | nil =>
                simp only [List.headI, List.tail_cons]
                simp only [joinNl, List.isEmpty_nil, if_true, List.append_nil] at ih ⊢
                rw [ih]
            | cons l1 t1 =>
                simp only [List.headI, List.tail_cons]
                rw [joinNl_cons _ _ (by simp), List.cons_append]
                rw [joinNl_cons _ _ (by simp)] at ih
                rw [ih]

lemma subStr_splitOnNl_mem {l s : List Char} (h : l ∈ splitOnNl s) :
    SubStr l s := by
  have h2 := subStr_joinNl h
  rwa [joinNl_splitOnNl] at h2

lemma takeWhile_dropWhile_eq {α : Type} (q : α → Bool) (l : List α) :
    l.takeWhile q ++ l.dropWhile q = l := by
  induction l with
  | nil => rfl
  | cons c t ih =>
      by_cases h : q c = true
      · simp [List.takeWhile_cons, List.dropWhile_cons, h, ih]
      · simp [List.takeWhile_cons, List.dropWhile_cons, h]

lemma subStr_pyStrip (s : List Char) : SubStr (pyStrip s) s := by
  refine ⟨s.takeWhile isStripChar,
    ((s.dropWhile isStripChar).reverse.takeWhile isStripChar).reverse, ?_⟩
  have h2 : s.dropWhile isStripChar =
      pyStrip s ++
        ((s.dropWhile isStripChar).reverse.takeWhile isStripChar).reverse := by
    rw [pyStrip]
    conv_lhs => rw [← List.reverse_reverse (s.dropWhile isStripChar),
      ← takeWhile_dropWhile_eq isStripChar (s.dropWhile isStripChar).reverse]
    rw [List.reverse_append]
  conv_lhs => rw [← takeWhile_dropWhile_eq isStripChar s, h2]
  rw [List.append_assoc]

lemma subStr_drop (l : List Char) (n : Nat) : SubStr (l.drop n) l :=
  ⟨l.take n, [], by simp⟩

lemma subStr_left_part {p q l : List Char} (h : SubStr (p ++ q) l) :
    SubStr p l := by
  rcases h with ⟨a, b, e⟩
  exact ⟨a, q ++ b, by rw [e]; simp [List.append_assoc]⟩

lemma pyDedent_eq (s : List Char) :
    pyDedent s =
      joinNl (((splitOnNl s).map wsNormalize).map
        (fun l => if leadsWith (dedentMargin ((splitOnNl s).map wsNormalize)) l
          then l.drop (dedentMargin ((splitOnNl s).map wsNormalize)).length
          else l)) := by
  rw [pyDedent]

lemma subStr_pyDedent_inv {x : List Char} (hne : x ≠ []) (hnl : '\n' ∉ x)
    {s : List Char} (h : SubStr x (pyDedent s)) : SubStr x s := by
  rw [pyDedent_eq] at h
  rcases joinNl_subStr_inv hne hnl _ h with ⟨l, hl, hsub⟩
  rcases List.mem_map.1 hl with ⟨v, hv, hfv⟩
  rcases List.mem_map.1 hv with ⟨l0, hl0, hwv⟩
  have h1 : SubStr x v := by
    rw [← hfv] at hsub
    by_cases hld : leadsWith (dedentMargin ((splitOnNl s).map wsNormalize)) v = true
    · rw [if_pos hld] at hsub
      exact subStr_trans hsub (subStr_drop _ _)
    · rwa [if_neg hld] at hsub
  have h2 : SubStr x l0 := by
    rw [← hwv, wsNormalize] at h1
    by_cases hb : (!l0.isEmpty && l0.all isSpaceTab) = true
    · rw [if_pos hb] at h1
      rcases h1 with ⟨a, b, e⟩
      have e2 := e.symm
      rcases List.append_eq_nil.1 e2 with ⟨e3, -⟩
      rcases List.append_eq_nil.1 e3 with ⟨-, e4⟩
      exact absurd e4 hne
    · rwa [if_neg hb] at h1
  exact subStr_trans h2 (subStr_splitOnNl_mem hl0)

lemma indent_block_eq (t : List Char) (n : Nat) :
    indent_block t n =
      joinNl ((pySplitlines t).map
        (fun l => if !l.isEmpty then sp n ++ l else sp n)) := by
  rw [indent_block]

/-- No raw '<' of the nav-item template is followed by '!', and escaping
leaves no '<' in user text, so the raw f-string never holds the pair. -/
lemma noAdj_navItemRaw (p : Project) : noAdj '<' '!' (navItemRaw p) = true := by
  by_cases hdt : descTruthy p = true
  · rcases hdd : p.description with _ | d
    · exact absurd hdt (by rw [descTruthy, hdd]; decide)
    · have hdne : d ≠ [] := by
        intro hdn
        rw [descTruthy, hdd, hdn] at hdt
        exact absurd hdt (by decide)
      have hene : escape d ≠ [] := escape_ne_nil hdne
      have e : navItemRaw p =
          '\n' :: (sp 12 ++ (("<li>".data) ++
          '\n' :: (sp 14 ++ (("<a href=\"".data) ++ (escape p.url ++ (("\"".data) ++
            ((" title=\"".data) ++ (escape d ++ (("\"".data) ++
            ((">".data) ++ (escape p.name ++ (("</a>".data) ++
          '\n' :: (sp 14 ++ (("<span class=\"description\">".data) ++
            (escape d ++ (("</span>".data) ++
          '\n' :: (sp 12 ++ (("</li>".data) ++
          '\n' :: sp 12)))))))))))))))))) := by
        simp [navItemRaw, descTruthy, hdd, hdne, hene, List.append_assoc]
      rw [e]
      apply noAdj_cons (by decide)
      apply noAdj_append_no_x (sp_not_mem 12 (by decide))
      apply noAdj_append_safe (by decide) (by decide)
      apply noAdj_cons (by decide)
      apply noAdj_append_no_x (sp_not_mem 14 (by decide))
      apply noAdj_append_safe (by decide) (by decide)
      apply noAdj_append_no_x (escape_no_lt p.url)
      apply noAdj_append_safe (by decide) (by decide)
      apply noAdj_append_safe (by decide) (by decide)
      apply noAdj_append_no_x (escape_no_lt d)
      apply noAdj_append_safe (by decide) (by decide)
      apply noAdj_append_safe (by decide) (by decide)
      apply noAdj_append_no_x (escape_no_lt p.name)
      apply noAdj_append_safe (by decide) (by decide)
      apply noAdj_cons (by decide)
      apply noAdj_append_no_x (sp_not_mem 14 (by decide))
      apply noAdj_append_safe (by decide) (by decide)
      apply noAdj_append_no_x (escape_no_lt d)
      apply noAdj_append_safe (by decide) (by decide)
      apply noAdj_cons (by decide)
      apply noAdj_append_no_x (sp_not_mem 12 (by decide))
      apply noAdj_append_safe (by decide) (by decide)
      apply noAdj_cons (by decide)
      exact noAdj_of_no_y (sp_not_mem 12 (by decide))
  · rw [Bool.not_eq_true] at hdt
    have e : navItemRaw p =
        '\n' :: (sp 12 ++ (("<li>".data) ++
        '\n' :: (sp 14 ++ (("<a href=\"".data) ++ (escape p.url ++ (("\"".data) ++
          ((">".data) ++ (escape p.name ++ (("</a>".data) ++
        '\n' :: (sp 14 ++
        ('\n' :: (sp 12 ++ (("</li>".data) ++
        '\n' :: sp 12))))))))))))) := by
      simp [navItemRaw, hdt, List.append_assoc]
    rw [e]
    apply noAdj_cons (by decide)
    apply noAdj_append_no_x (sp_not_mem 12 (by decide))
    apply noAdj_append_safe (by decide) (by decide)
    apply noAdj_cons (by decide)
    apply noAdj_append_no_x (sp_not_mem 14 (by decide))
    apply noAdj_append_safe (by decide) (by decide)
    apply noAdj_append_no_x (escape_no_lt p.url)
    apply noAdj_append_safe (by decide) (by decide)
    apply noAdj_append_safe (by decide) (by decide)
    apply noAdj_append_no_x (escape_no_lt p.name)
    apply noAdj_append_safe (by decide) (by decide)
    apply noAdj_cons (by decide)
    apply noAdj_append_no_x (sp_not_mem 14 (by decide))
    apply noAdj_cons (by decide)
    apply noAdj_append_no_x (sp_not_mem 12 (by decide))
    apply noAdj_append_safe (by decide) (by decide)
    apply noAdj_cons (by decide)
    exact noAdj_of_no_y (sp_not_mem 12 (by decide))

lemma build_cons_eq (p : Project) (rest : List Project) :
    build_navigation_markup (p :: rest) =
      joinNl (("<ul class=\"classified-projects\">".data) ::
        ((if !(joinNl ((p :: rest).map
              (fun q => indent_block (nav_item q) 2))).isEmpty
          then pySplitlines (joinNl ((p :: rest).map
            (fun q => indent_block (nav_item q) 2)))
          else []) ++ [("</ul>".data)])) := by
  rw [build_navigation_markup]
  rfl

/-- The rendered navigation markup never contains the end marker, whatever
the project fields hold: escaping leaves no raw '<' in user text, no '<' of
the templates is followed by '!', and the dedent, strip, splitlines, indent
and join steps produce no new adjacency. -/
lemma endMarker_not_in_markup (qs : List Project) :
    hasSub END_MARKER (build_navigation_markup qs) = false := by
  cases hb : hasSub END_MARKER (build_navigation_markup qs) with
  | false => rfl
  | true =>
      exfalso
      have hne : END_MARKER ≠ [] := by decide
      have hnl : '\n' ∉ END_MARKER := by decide
      cases qs with
      | nil => exact absurd hb (by decide)
      | cons p rest =>
          have hsub := (hasSub_iff _ _).1 hb
          rw [build_cons_eq] at hsub
          rcases joinNl_subStr_inv hne hnl _ hsub with ⟨l, hl, hsubl⟩
          rcases List.mem_cons.1 hl with hl1 | hl1
          · subst hl1
            exact absurd ((hasSub_iff _ _).2 hsubl) (by decide)
          rcases List.mem_append.1 hl1 with hl2 | hl2
          · cases hni : (joinNl ((p :: rest).map
                (fun q => indent_block (nav_item q) 2))).isEmpty with
            | true =>
                rw [hni] at hl2
                simp only [Bool.not_true, Bool.false_eq_true, if_false] at hl2
                cases hl2
            | false =>
                rw [hni] at hl2
                simp only [Bool.not_false, if_true] at hl2
                have hEnav : SubStr END_MARKER
                    (joinNl ((p :: rest).map
                      (fun q => indent_block (nav_item q) 2))) :=
                  subStr_trans hsubl (line_subStr _ _ hl2)
                rcases joinNl_subStr_inv hne hnl _ hEnav with ⟨li, hli, hsubli⟩
                rcases List.mem_map.1 hli with ⟨q, _, hiq⟩
                rw [← hiq, indent_block_eq] at hsubli
                rcases joinNl_subStr_inv hne hnl _ hsubli with ⟨lg, hlg, hsublg⟩
                rcases List.mem_map.1 hlg with ⟨l2, hl2m, hgl⟩
                rw [← hgl] at hsublg
                by_cases hl2e : (!l2.isEmpty) = true
                · rw [if_pos hl2e] at hsublg
                  have hEl2 : SubStr END_MARKER l2 :=
                    subStr_strip_ws endMarker_head (by decide) (sp 2) l2
                      (sp_all_space 2) hsublg
                  have hEnavq : SubStr END_MARKER (nav_item q) :=
                    subStr_trans hEl2 (line_subStr _ _ hl2m)
                  have hEd : SubStr END_MARKER (pyDedent (navItemRaw q)) :=
                    subStr_trans hEnavq (subStr_pyStrip _)
                  have hEr : SubStr END_MARKER (navItemRaw q) :=
                    subStr_pyDedent_inv hne hnl hEd
                  have hpair : SubStr ['<', '!'] (navItemRaw q) := by
                    rw [show END_MARKER =
                      ['<', '!'] ++ ("-- PROJECT_NAV_END -->".data) from rfl] at hEr
                    exact subStr_left_part hEr
                  exact noAdj_not_subStr (noAdj_navItemRaw q) hpair
                · rw [if_neg hl2e] at hsublg
                  exact absurd ((hasSub_iff _ _).2 hsublg) (by decide)
          · rw [List.mem_singleton] at hl2
            subst hl2
            exact absurd ((hasSub_iff _ _).2 hsubl) (by decide)

/-- Counterexample to C2 as stated: when the fragment itself contains the end
marker, the second splice matches the end marker inside the previously
inserted fragment, and splicing is not idempotent.  The document holds the
marker pair, yet splicing twice differs from splicing once. -/
theorem splice_idem_cex :
    HasMarkerPair (START_MARKER ++ END_MARKER) ∧
    update_homepage (START_MARKER ++ END_MARKER) END_MARKER =
      some (START_MARKER ++ '\n' :: END_MARKER ++ '\n' :: END_MARKER) ∧
    update_homepage (START_MARKER ++ '\n' :: END_MARKER ++ '\n' :: END_MARKER)
        END_MARKER =
      some (START_MARKER ++ '\n' :: END_MARKER ++ '\n' :: END_MARKER ++
        '\n' :: END_MARKER) ∧
    START_MARKER ++ '\n' :: END_MARKER ++ '\n' :: END_MARKER ++
        '\n' :: END_MARKER ≠
      START_MARKER ++ '\n' :: END_MARKER ++ '\n' :: END_MARKER := by
  exact ⟨⟨0, 26, by decide, by decide, by decide⟩, by decide, by decide, by decide⟩

/-- C2 amended: for every document containing the marker pair and every
fragment that does not contain the end marker as a substring, one splice
yields a document whose span between the matched markers is a newline, the
indented fragment, a newline and the captured indent, and splicing that
document again with the same fragment returns it unchanged; moreover the
restriction on the fragment excludes nothing the tool itself produces, since
rendered navigation markup never contains the end marker. -/
theorem splice_idem_amended (content markup : List Char)
    (hmk : HasMarkerPair content) (hfree : hasSub END_MARKER markup = false) :
    (∀ qs : List Project,
      hasSub END_MARKER (build_navigation_markup qs) = false) ∧
    ∃ d1 pre ind inner post,
      content = pre ++ ind ++ START_MARKER ++ inner ++ END_MARKER ++ post ∧
      update_homepage content markup = some d1 ∧
      d1 = pre ++ ind ++ START_MARKER ++ '\n' :: indentedMarkup ind markup ++
        '\n' :: ind ++ END_MARKER ++ post ∧
      update_homepage d1 markup = some d1 := by
  refine ⟨fun qs => endMarker_not_in_markup qs, ?_⟩
  rcases (findMatch_isSome_iff content).2 hmk with ⟨m, hm⟩
  rcases findMatch_spec hm with
    ⟨pre, inner, post, hc, hpl, hstop, hws, hpw, hfirst, hlazy⟩
  have hupd := update_eq markup hm hc hpl hstop
  set d1 := pre ++ m.indent ++ START_MARKER ++
    '\n' :: indentedMarkup m.indent markup ++ '\n' :: m.indent ++ END_MARKER ++
    post with hd1
  have hshare : content.take (pre.length + m.indent.length + START_MARKER.length) =
      d1.take (pre.length + m.indent.length + START_MARKER.length) := by
    have e1 : content = (pre ++ m.indent ++ START_MARKER) ++
        (inner ++ (END_MARKER ++ post)) := by
      rw [hc]; simp [List.append_assoc]
    have e2 : d1 = (pre ++ m.indent ++ START_MARKER) ++
        ('\n' :: indentedMarkup m.indent markup ++ ('\n' :: m.indent ++
          (END_MARKER ++ post))) := by
      rw [hd1]; simp [List.append_assoc]
    rw [e1, e2, show pre.length + m.indent.length + START_MARKER.length =
      (pre ++ m.indent ++ START_MARKER).length from by
        simp only [List.length_append],
      List.take_left, List.take_left]
  have hSl : START_MARKER.length = 26 := by decide
  have hnoS : ∀ q < pre.length + m.indent.length,
      leadsWith START_MARKER (d1.drop q) = false := by
    intro q hq
    rw [← leadsWith_drop_ext START_MARKER hshare (by omega)]
    have := hfirst q (by omega)
    exact this
  have hm2 := findMatch_after_splice markup pre m.indent post hws hpw
    (by rw [← hd1]; exact hnoS) hfree
  rw [← hd1] at hm2
  have hc2 : d1 = pre ++ m.indent ++ START_MARKER ++
      ('\n' :: indentedMarkup m.indent markup ++ '\n' :: m.indent) ++
      END_MARKER ++ post := by
    rw [hd1]; simp [List.append_assoc]
  have hupd2 := update_eq markup hm2 hc2 (by simp only)
    (by simp only [List.length_append, List.length_cons]; omega)
  refine ⟨d1, pre, m.indent, inner, post, hc, ?_, rfl, ?_⟩
  · rw [hupd, hd1]
  · rw [hupd2, hd1]

/-- Witness for splice_idem_amended on a concrete document and fragment. -/
theorem splice_idem_amended_witness :
    (∀ qs : List Project,
      hasSub END_MARKER (build_navigation_markup qs) = false) ∧
    ∃ d1 pre ind inner post,
      (("<div>\n  ".data) ++ START_MARKER ++ ("\nold\n  ".data) ++ END_MARKER ++
          ("\n</div>".data)) =
        pre ++ ind ++ START_MARKER ++ inner ++ END_MARKER ++ post ∧
      update_homepage (("<div>\n  ".data) ++ START_MARKER ++ ("\nold\n  ".data) ++
          END_MARKER ++ ("\n</div>".data)) (("<p>a</p>\n\n<p>b</p>".data)) =
        some d1 ∧
      d1 = pre ++ ind ++ START_MARKER ++
        '\n' :: indentedMarkup ind (("<p>a</p>\n\n<p>b</p>".data)) ++
        '\n' :: ind ++ END_MARKER ++ post ∧
      update_homepage d1 (("<p>a</p>\n\n<p>b</p>".data)) = some d1 :=
  splice_idem_amended (("<div>\n  ".data) ++ START_MARKER ++ ("\nold\n  ".data) ++
      END_MARKER ++ ("\n</div>".data)) (("<p>a</p>\n\n<p>b</p>".data))
    ⟨8, 41, by decide, by decide, by decide⟩ (by decide)

/-- Values produced by json.loads. -/
inductive Json where
  | null : Json
  | bool (b : Bool) : Json
  | num (n : Int) : Json
  | str (s : List Char) : Json
  | arr (elems : List Json) : Json
  | obj (fields : List (List Char × Json)) : Json

/-- Result of reading and parsing a metadata file. -/
inductive FileContent where
  | malformed (err : List Char) : FileContent
  | parsed (j : Json) : FileContent

/-- Child of the projects root as discover_projects sees it: its name,
whether it is a directory, and the content of its project.json when the file
exists. -/
structure DirEntry where
  name : List Char
  isDir : Bool
  metadata : Option FileContent

/-- Filesystem state consumed by a run: the projects root path, whether the
root exists, and its children. -/
structure FS where
  rootPath : List Char
  rootExists : Bool
  entries : List DirEntry

/-- Project record as discover_projects builds it; the fields hold whatever
Python values came out of the metadata, so they stay JSON values here
(Json.null standing for Python None). -/
structure PyProject where
  name : Json
  url : Json
  description : Json

/-- Lookup in a parsed JSON object: a later duplicate key overrides an
earlier one, as in Python dict construction. -/
def lookupKey (fields : List (List Char × Json)) (k : List Char) : Option Json :=
  match fields with
  | [] => none
  | (k2, v) :: rest =>
    match lookupKey rest k with
    | some r => some r
    | none => if k2 = k then some v else none

/-- Model of dict.get with default None: an absent key yields Python None,
modelled as Json.null (which is also how a JSON null value arrives). -/
def pyGet (fields : List (List Char × Json)) (k : List Char) : Json :=
  (lookupKey fields k).getD Json.null

/-- Python truthiness of a loaded JSON value. -/
def jsonTruthy : Json → Bool
  | Json.null => false
  | Json.bool b => b
  | Json.num n => decide (n ≠ 0)
  | Json.str s => !s.isEmpty
  | Json.arr elems => !elems.isEmpty
  | Json.obj fields => !fields.isEmpty

/-- Scanner behind str.title for the ASCII letters appearing in directory
names: a letter is uppercased when it follows a non-letter and lowercased
when it follows a letter. -/
def pyTitleGo : Bool → List Char → List Char
  | _, [] => []
  | prevAlpha, c :: rest =>
    if c.isAlpha then
      (if prevAlpha then c.toLower else c.toUpper) :: pyTitleGo true rest
    else c :: pyTitleGo false rest

/-- Model of str.title. -/
def pyTitle (s : List Char) : List Char := pyTitleGo false s

/-- Humanised fallback name: hyphens become spaces, then title case. -/
def humanize (dirName : List Char) : List Char :=
  pyTitle (dirName.map (fun c => if c = '-' then ' ' else c))

/-- POSIX path of a project directory under the projects root. -/
def dirPath (rootPath dirName : List Char) : List Char := rootPath ++ '/' :: dirName

/-- Path of the metadata file inside a project directory. -/
def metadataPath (rootPath dirName : List Char) : List Char :=
  dirPath rootPath dirName ++ ("/project.json".data)

/-- Project record built from a parsed metadata object with the fallback
logic of discover_projects: the Python or-expression replaces falsy name and
url values by the humanised directory name and the directory path with a
trailing slash; the description is stored as retrieved. -/
def mkPyProject (rootPath dirName : List Char)
    (fields : List (List Char × Json)) : PyProject :=
  { name :=
      let v := pyGet fields ("name".data)
      if jsonTruthy v then v else Json.str (humanize dirName)
    url :=
      let v := pyGet fields ("url".data)
      if jsonTruthy v then v else Json.str (dirPath rootPath dirName ++ ("/".data))
    description := pyGet fields ("description".data) }

/-- Lexicographic comparison of names by code point, the order in which
sorted arranges sibling paths. -/
def strLe : List Char → List Char → Bool
  | [], _ => true
  | _ :: _, [] => false
  | a :: as2, b :: bs => if a = b then strLe as2 bs else decide (a < b)

/-- Stable insertion into a name-sorted list of entries. -/
def insertEntry (x : DirEntry) : List DirEntry → List DirEntry
  | [] => [x]
  | y :: ys => if strLe y.name x.name then y :: insertEntry x ys else x :: y :: ys

/-- Model of sorted over the directory entries, by name. -/
def pySorted (l : List DirEntry) : List DirEntry :=
  l.foldl (fun acc x => insertEntry x acc) []

/-- Outcome of discover_projects: a project list, a SystemExit with its
message, or an uncaught Python exception (the AttributeError raised when a
non-dict metadata value receives the .get call), identified by the offending
Python type name. -/
inductive DiscoverResult where
  | ok (projects : List PyProject)
  | sysExit (msg : List Char)
  | pyError (msg : List Char)

/-- Python type name of a JSON value. -/
def pyTypeName : Json → List Char
  | Json.null => ("NoneType".data)
  | Json.bool _ => ("bool".data)
  | Json.num _ => ("int".data)
  | Json.str _ => ("str".data)
  | Json.arr _ => ("list".data)
  | Json.obj _ => ("dict".data)

/-- Diagnostic of the SystemExit raised on malformed metadata. -/
def invalidJsonMsg (path err : List Char) : List Char :=
  ("Invalid JSON in ".data) ++ path ++ (": ".data) ++ err

/-- Loop of discover_projects over the sorted entries: skip non-directories
and directories without metadata, abort on malformed metadata, raise on
parseable non-object metadata, and otherwise collect the project record. -/
def discoverGo (rootPath : List Char) : List DirEntry → DiscoverResult
  | [] => DiscoverResult.ok []
  | e :: rest =>
    if e.isDir then
      match e.metadata with
      | none => discoverGo rootPath rest
      | some (FileContent.malformed err) =>
          DiscoverResult.sysExit (invalidJsonMsg (metadataPath rootPath e.name) err)
      | some (FileContent.parsed (Json.obj fields)) =>
          match discoverGo rootPath rest with
          | DiscoverResult.ok ps =>
              DiscoverResult.ok (mkPyProject rootPath e.name fields :: ps)
          | r => r
      | some (FileContent.parsed j) => DiscoverResult.pyError (pyTypeName j)
    else discoverGo rootPath rest

/-- Model of discover_projects: an absent root yields the empty list, and an
existing root is scanned in sorted order. -/
def discover_projects (fs : FS) : DiscoverResult :=
  if fs.rootExists then discoverGo fs.rootPath (pySorted fs.entries)
  else DiscoverResult.ok []

/-- String content of a field value; None models the AttributeError that
escape raises on a non-string. -/
def strField : Json → Option (List Char)
  | Json.str s => some s
  | _ => none

/-- Description as rendering sees it: a string is kept, a falsy value
renders as an absent description, and a truthy non-string raises when
escaped. -/
def descField : Json → Option (Option (List Char))
  | Json.str s => some (some s)
  | j => if jsonTruthy j then none else some none

/-- Conversion from the discovery record to the string-level record that the
rendering stage consumes; None models a rendering-time Python exception. -/
def asProject (p : PyProject) : Option Project :=
  match strField p.name, strField p.url, descField p.description with
  | some n, some u, some d => some ⟨n, u, d⟩
  | _, _, _ => none

def projectsOf : List PyProject → Option (List Project)
  | [] => some []
  | p :: rest =>
    match asProject p, projectsOf rest with
    | some q, some qs => some (q :: qs)
    | _, _ => none

/-- Outcome of a whole run of main. -/
inductive RunResult where
  | printed (markup : List Char)
  | written (doc : List Char)
  | sysExit (msg : List Char)
  | pyError (msg : List Char)

/-- Diagnostic of the SystemExit raised when the markers are missing. -/
def markersMsg : List Char :=
  ("Could not find the classified project markers in the index file.".data)

/-- Model of main over the filesystem model and the in-memory index
document: discovery, rendering, then either the dry-run print or the splice
and write. -/
def runMain (fs : FS) (indexDoc : List Char) (dryRun : Bool) : RunResult :=
  match discover_projects fs with
  | DiscoverResult.sysExit msg => RunResult.sysExit msg
  | DiscoverResult.pyError msg => RunResult.pyError msg
  | DiscoverResult.ok pyPs =>
    match projectsOf pyPs with
    | none => RunResult.pyError ("unrenderable project field".data)
    | some ps =>
      let markup := build_navigation_markup ps
      if dryRun then RunResult.printed markup
      else
        match update_homepage indexDoc markup with
        | none => RunResult.sysExit markersMsg
        | some updated => RunResult.written updated

/-- Test for the written outcome. -/
def isWritten : RunResult → Bool
  | RunResult.written _ => true
  | _ => false

/-- Test for the malformed-metadata diagnostic outcome of discovery. -/
def isSysExit : DiscoverResult → Bool
  | DiscoverResult.sysExit _ => true
  | _ => false

/-- Eligibility of an entry: a directory with parseable object metadata,
yielding its name and fields. -/
def navEligible (e : DirEntry) : Option (List Char × List (List Char × Json)) :=
  if e.isDir then
    match e.metadata with
    | some (FileContent.parsed (Json.obj fields)) => some (e.name, fields)
    | _ => none
  else none

lemma strLe_total (a b : List Char) : strLe a b = true ∨ strLe b a = true := by
  induction a generalizing b with
  | nil => exact Or.inl rfl
  | cons x xs ih =>
      cases b with
      | nil => exact Or.inr rfl
      | cons y ys =>
          by_cases hxy : x = y
          · subst hxy
            simp only [strLe, if_pos rfl]
            exact ih ys
          · rcases lt_trichotomy x y with h | h | h
            · left
              simp only [strLe, if_neg hxy]
              exact decide_eq_true h
            · exact absurd h hxy
            · right
              simp only [strLe, if_neg (fun he : y = x => hxy he.symm)]
              exact decide_eq_true h

lemma strLe_trans {a b c : List Char} (h1 : strLe a b = true)
    (h2 : strLe b c = true) : strLe a c = true := by
  induction a generalizing b c with
  | nil => rfl
  | cons x xs ih =>
      cases b with
      | nil => cases h1
      | cons y ys =>
          cases c with
          | nil => cases h2
          | cons z zs =>
              by_cases hxy : x = y
              · subst hxy
                rw [strLe, if_pos rfl] at h1
                by_cases hxz : x = z
                · subst hxz
                  rw [strLe, if_pos rfl] at h2 ⊢
                  exact ih h1 h2
                · rw [strLe, if_neg hxz] at h2 ⊢
                  exact h2
              · rw [strLe, if_neg hxy] at h1
                have hlt1 : x < y := of_decide_eq_true h1
                by_cases hyz : y = z
                · subst hyz
                  rw [strLe, if_neg hxy]
                  exact decide_eq_true hlt1
                · rw [strLe, if_neg hyz] at h2
                  have hlt2 : y < z := of_decide_eq_true h2
                  have hxz : ¬ x = z := by
                    intro he
                    subst he
                    exact absurd (lt_trans hlt1 hlt2) (lt_irrefl _)
                  rw [strLe, if_neg hxz]
                  exact decide_eq_true (lt_trans hlt1 hlt2)

lemma mem_insertEntry {z x : DirEntry} :
    ∀ l : List DirEntry, z ∈ insertEntry x l ↔ z = x ∨ z ∈ l := by
  intro l
  induction l with
  | nil => simp [insertEntry]
  | cons y ys ih =>
      rcases Bool.eq_false_or_eq_true (strLe y.name x.name) with h | h
      · rw [insertEntry, if_pos h]
        simp only [List.mem_cons, ih]
        tauto
      · rw [insertEntry, if_neg (by simp [h])]
        simp only [List.mem_cons]

lemma pairwise_insertEntry {x : DirEntry} :
    ∀ l : List DirEntry,
      List.Pairwise (fun a b => strLe a.name b.name = true) l →
      List.Pairwise (fun a b => strLe a.name b.name = true) (insertEntry x l) := by
  intro l
  induction l with
  | nil => intro _; exact List.pairwise_singleton _ _
  | cons y ys ih =>
      intro hp
      rcases List.pairwise_cons.1 hp with ⟨hy, hys⟩
      by_cases h : strLe y.name x.name = true
      · rw [insertEntry, if_pos h]
        refine List.pairwise_cons.2 ⟨?_, ih hys⟩
        intro z hz
        rcases (mem_insertEntry ys).1 hz with hz | hz
        · subst hz; exact h
        · exact hy z hz
      · rw [insertEntry, if_neg h]
        have hxy : strLe x.name y.name = true := by
          rcases strLe_total x.name y.name with h2 | h2
          · exact h2
          · exact absurd h2 h
        refine List.pairwise_cons.2 ⟨?_, hp⟩
        intro z hz
        rcases List.mem_cons.1 hz with hz | hz
        · subst hz; exact hxy
        · exact strLe_trans hxy (hy z hz)

lemma pairwise_pySorted (l : List DirEntry) :
    List.Pairwise (fun a b => strLe a.name b.name = true) (pySorted l) := by
  suffices H : ∀ acc, List.Pairwise (fun a b => strLe a.name b.name = true) acc →
      List.Pairwise (fun a b => strLe a.name b.name = true)
        (l.foldl (fun acc x => insertEntry x acc) acc) by
    exact H [] List.Pairwise.nil
  induction l with
  | nil => intro acc h; exact h
  | cons e es ih =>
      intro acc h
      exact ih _ (pairwise_insertEntry acc h)

lemma mem_pySorted {x : DirEntry} (l : List DirEntry) :
    x ∈ pySorted l ↔ x ∈ l := by
  suffices H : ∀ acc, (x ∈ l.foldl (fun acc x => insertEntry x acc) acc ↔
      x ∈ acc ∨ x ∈ l) by
    rw [pySorted, H []]
    simp
  induction l with
  | nil => intro acc; simp
  | cons e es ih =>
      intro acc
      simp only [List.foldl_cons, ih, mem_insertEntry, List.mem_cons]
      tauto

/-- Characterisation of a successful discovery scan: the produced projects
are exactly the eligible entries, in scan order. -/
lemma discoverGo_ok_eq (rootPath : List Char) :
    ∀ (l : List DirEntry) (ps : List PyProject),
      discoverGo rootPath l = DiscoverResult.ok ps →
      ps = (l.filterMap navEligible).map
        (fun x => mkPyProject rootPath x.1 x.2) := by
  intro l
  induction l with
  | nil =>
      intro ps h
      injection h with h
      rw [← h]
      rfl
  | cons e rest ih =>
      intro ps h
      by_cases hd : e.isDir = true
      · rw [discoverGo, if_pos hd] at h
        cases hm : e.metadata with
        | none =>
            rw [hm] at h
            rw [List.filterMap_cons, show navEligible e = none from by
              simp [navEligible, hd, hm]]
            exact ih ps h
        | some fc =>
            cases fc with
            | malformed err =>
                rw [hm] at h
                cases h
            | parsed j =>
                cases j with
                | obj fields =>
                    rw [hm] at h
                    cases hrec : discoverGo rootPath rest with
                    | ok ps2 =>
                        rw [hrec] at h
                        injection h with h
                        rw [List.filterMap_cons, show navEligible e =
                          some (e.name, fields) from by simp [navEligible, hd, hm]]
                        rw [← h, ih ps2 hrec]
                        rfl
                    | sysExit m2 => rw [hrec] at h; cases h
                    | pyError m2 => rw [hrec] at h; cases h
                | null => rw [hm] at h; cases h
                | bool b => rw [hm] at h; cases h
                | num n => rw [hm] at h; cases h
                | str s => rw [hm] at h; cases h
                | arr elems => rw [hm] at h; cases h
      · rw [Bool.not_eq_true] at hd
        rw [discoverGo, hd] at h
        simp only [Bool.false_eq_true, if_false] at h
        rw [List.filterMap_cons, show navEligible e = none from by
          simp [navEligible, hd]]
        exact ih ps h

/-- Propagation of a malformed metadata file to a fatal scan outcome, when
every parseable metadata value in the list is an object. -/
lemma discoverGo_malformed (rootPath : List Char) :
    ∀ l : List DirEntry,
      (∃ e ∈ l, e.isDir = true ∧
        ∃ err, e.metadata = some (FileContent.malformed err)) →
      (∀ e ∈ l, e.isDir = true → ∀ j, e.metadata = some (FileContent.parsed j) →
        ∃ fields, j = Json.obj fields) →
      ∃ dirName err,
        (∃ e ∈ l, e.name = dirName ∧ e.isDir = true ∧
          e.metadata = some (FileContent.malformed err)) ∧
        discoverGo rootPath l =
          DiscoverResult.sysExit (invalidJsonMsg (metadataPath rootPath dirName) err) := by
  intro l
  induction l with
  | nil =>
      rintro ⟨e, he, _⟩ _
      cases he
  | cons e rest ih =>
      rintro ⟨e2, he2, hd2, err2, hm2⟩ hobj
      by_cases hd : e.isDir = true
      · cases hm : e.metadata with
        | none =>
            have hbad : ∃ e3 ∈ rest, e3.isDir = true ∧
                ∃ err, e3.metadata = some (FileContent.malformed err) := by
              rcases List.mem_cons.1 he2 with h | h
              · subst h
                rw [hm] at hm2
                cases hm2
              · exact ⟨e2, h, hd2, err2, hm2⟩
            rcases ih hbad (fun e3 he3 => hobj e3 (List.mem_cons_of_mem _ he3))
              with ⟨dn, er, ⟨e3, he3, hprop⟩, hgo⟩
            refine ⟨dn, er, ⟨e3, List.mem_cons_of_mem _ he3, hprop⟩, ?_⟩
            rw [discoverGo, if_pos hd, hm]
            exact hgo
        | some fc =>
            cases fc with
            | malformed err =>
                refine ⟨e.name, err, ⟨e, List.mem_cons_self _ _, rfl, hd, hm⟩, ?_⟩
                rw [discoverGo, if_pos hd, hm]
            | parsed j =>
                rcases hobj e (List.mem_cons_self _ _) hd j hm with ⟨fields, hj⟩
                subst hj
                have hbad : ∃ e3 ∈ rest, e3.isDir = true ∧
                    ∃ err, e3.metadata = some (FileContent.malformed err) := by
                  rcases List.mem_cons.1 he2 with h | h
                  · subst h
                    rw [hm] at hm2
                    cases hm2
                  · exact ⟨e2, h, hd2, err2, hm2⟩
                rcases ih hbad (fun e3 he3 => hobj e3 (List.mem_cons_of_mem _ he3))
                  with ⟨dn, er, ⟨e3, he3, hprop⟩, hgo⟩
                refine ⟨dn, er, ⟨e3, List.mem_cons_of_mem _ he3, hprop⟩, ?_⟩
                rw [discoverGo, if_pos hd, hm, hgo]
      · have hbad : ∃ e3 ∈ rest, e3.isDir = true ∧
            ∃ err, e3.metadata = some (FileContent.malformed err) := by
          rcases List.mem_cons.1 he2 with h | h
          · subst h
            exact absurd hd2 hd
          · exact ⟨e2, h, hd2, err2, hm2⟩
        rcases ih hbad (fun e3 he3 => hobj e3 (List.mem_cons_of_mem _ he3))
          with ⟨dn, er, ⟨e3, he3, hprop⟩, hgo⟩
        refine ⟨dn, er, ⟨e3, List.mem_cons_of_mem _ he3, hprop⟩, ?_⟩
        rw [Bool.not_eq_true] at hd
        rw [discoverGo, hd]
        simp only [Bool.false_eq_true, if_false]
        exact hgo

lemma navEligible_fst {e : DirEntry} {pr : List Char × List (List Char × Json)}
    (h : navEligible e = some pr) : pr.1 = e.name := by
  unfold navEligible at h
  by_cases hd : e.isDir = true
  · rw [if_pos hd] at h
    cases hm : e.metadata with
    | none => rw [hm] at h; cases h
    | some fc =>
        cases fc with
        | malformed err => rw [hm] at h; cases h
        | parsed j =>
            cases j with
            | obj fields =>
                rw [hm] at h
                injection h with h
                rw [← h]
            | null => rw [hm] at h; cases h
            | bool b => rw [hm] at h; cases h
            | num n => rw [hm] at h; cases h
            | str s => rw [hm] at h; cases h
            | arr elems => rw [hm] at h; cases h
  · rw [if_neg hd] at h
    cases h

lemma eligible_names_sublist : ∀ l : List DirEntry,
    List.Sublist ((l.filterMap navEligible).map Prod.fst) (l.map DirEntry.name) := by
  intro l
  induction l with
  | nil => simp
  | cons e rest ih =>
      cases hne : navEligible e with
      | none =>
          rw [List.filterMap_cons, hne, List.map_cons]
          exact ih.cons _
      | some pr =>
          rw [List.filterMap_cons, hne, List.map_cons, List.map_cons,
            navEligible_fst hne]
          exact ih.cons₂ _

/-- Counterexample to C5 as stated: a present but empty name value is falsy
in Python, so the or-fallback replaces it by the humanised directory name
instead of using the present value. -/
theorem fallback_cex :
    lookupKey [(("name".data), Json.str [])] ("name".data) = some (Json.str []) ∧
    discover_projects ⟨("projects".data), true,
        [⟨("alpha-tool".data), true,
          some (FileContent.parsed (Json.obj [(("name".data), Json.str [])]))⟩]⟩ =
      DiscoverResult.ok [⟨Json.str ("Alpha Tool".data),
        Json.str ("projects/alpha-tool/".data), Json.null⟩] ∧
    Json.str ("Alpha Tool".data) ≠ Json.str [] := by
  refine ⟨rfl, rfl, ?_⟩
  intro h
  injection h with h
  exact absurd h (by decide)

/-- C5 amended: a discovered project's name equals the metadata name value
when that key is present with a truthy value and otherwise the humanised
directory name; the url equals the metadata url value when present and
truthy and otherwise the directory path with a trailing slash; the
description is the retrieved metadata value with no fallback. -/
theorem fallback_amended (fs : FS) (e : DirEntry)
    (fields : List (List Char × Json)) (ps : List PyProject)
    (hroot : fs.rootExists = true)
    (he : e ∈ fs.entries) (hd : e.isDir = true)
    (hm : e.metadata = some (FileContent.parsed (Json.obj fields)))
    (h : discover_projects fs = DiscoverResult.ok ps) :
    mkPyProject fs.rootPath e.name fields ∈ ps ∧
    (mkPyProject fs.rootPath e.name fields).name =
      (match lookupKey fields ("name".data) with
       | some v => if jsonTruthy v then v else Json.str (humanize e.name)
       | none => Json.str (humanize e.name)) ∧
    (mkPyProject fs.rootPath e.name fields).url =
      (match lookupKey fields ("url".data) with
       | some v => if jsonTruthy v then v
           else Json.str (dirPath fs.rootPath e.name ++ ("/".data))
       | none => Json.str (dirPath fs.rootPath e.name ++ ("/".data))) ∧
    (mkPyProject fs.rootPath e.name fields).description =
      (lookupKey fields ("description".data)).getD Json.null := by
  rw [discover_projects, if_pos hroot] at h
  have h1 := discoverGo_ok_eq fs.rootPath _ ps h
  refine ⟨?_, ?_, ?_, rfl⟩
  · rw [h1]
    have hmem : (e.name, fields) ∈ (pySorted fs.entries).filterMap navEligible :=
      List.mem_filterMap.2 ⟨e, (mem_pySorted _).2 he, by simp [navEligible, hd, hm]⟩
    exact List.mem_map_of_mem _ hmem
  · cases hk : lookupKey fields ("name".data) with
    | none => simp [mkPyProject, pyGet, hk, jsonTruthy]
    | some v => simp [mkPyProject, pyGet, hk]
  · cases hk : lookupKey fields ("url".data) with
    | none => simp [mkPyProject, pyGet, hk, jsonTruthy]
    | some v => simp [mkPyProject, pyGet, hk]

/-- Witness for fallback_amended on the spec's end-to-end scenario: a demo
directory with name, url and description all present. -/
theorem fallback_amended_witness :
    mkPyProject ("projects".data) ("demo".data)
        [(("name".data), Json.str ("Demo".data)),
         (("url".data), Json.str ("demo/".data)),
         (("description".data), Json.str ("A sample".data))] ∈
      [(⟨Json.str ("Demo".data), Json.str ("demo/".data),
        Json.str ("A sample".data)⟩ : PyProject)] ∧
    (mkPyProject ("projects".data) ("demo".data)
        [(("name".data), Json.str ("Demo".data)),
         (("url".data), Json.str ("demo/".data)),
         (("description".data), Json.str ("A sample".data))]).name =
      (match lookupKey [(("name".data), Json.str ("Demo".data)),
         (("url".data), Json.str ("demo/".data)),
         (("description".data), Json.str ("A sample".data))] ("name".data) with
       | some v => if jsonTruthy v then v else Json.str (humanize ("demo".data))
       | none => Json.str (humanize ("demo".data))) ∧
    (mkPyProject ("projects".data) ("demo".data)
        [(("name".data), Json.str ("Demo".data)),
         (("url".data), Json.str ("demo/".data)),
         (("description".data), Json.str ("A sample".data))]).url =
      (match lookupKey [(("name".data), Json.str ("Demo".data)),
         (("url".data), Json.str ("demo/".data)),
         (("description".data), Json.str ("A sample".data))] ("url".data) with
       | some v => if jsonTruthy v then v
           else Json.str (dirPath ("projects".data) ("demo".data) ++ ("/".data))
       | none => Json.str (dirPath ("projects".data) ("demo".data) ++ ("/".data))) ∧
    (mkPyProject ("projects".data) ("demo".data)
        [(("name".data), Json.str ("Demo".data)),
         (("url".data), Json.str ("demo/".data)),
         (("description".data), Json.str ("A sample".data))]).description =
      (lookupKey [(("name".data), Json.str ("Demo".data)),
         (("url".data), Json.str ("demo/".data)),
         (("description".data), Json.str ("A sample".data))]
        ("description".data)).getD Json.null :=
  fallback_amended
    ⟨("projects".data), true,
      [⟨("demo".data), true, some (FileContent.parsed (Json.obj
        [(("name".data), Json.str ("Demo".data)),
         (("url".data), Json.str ("demo/".data)),
         (("description".data), Json.str ("A sample".data))]))⟩]⟩
    ⟨("demo".data), true, some (FileContent.parsed (Json.obj
      [(("name".data), Json.str ("Demo".data)),
       (("url".data), Json.str ("demo/".data)),
       (("description".data), Json.str ("A sample".data))]))⟩
    [(("name".data), Json.str ("Demo".data)),
     (("url".data), Json.str ("demo/".data)),
     (("description".data), Json.str ("A sample".data))]
    [⟨Json.str ("Demo".data), Json.str ("demo/".data),
      Json.str ("A sample".data)⟩]
    rfl (List.mem_cons_self _ _) rfl rfl rfl

/-- Scenario of the ordering property: three project directories created in
the order c-proj, a-proj, b-proj, each with an empty metadata object. -/
def orderingFS : FS :=
  ⟨("projects".data), true,
    [⟨("c-proj".data), true, some (FileContent.parsed (Json.obj []))⟩,
     ⟨("a-proj".data), true, some (FileContent.parsed (Json.obj []))⟩,
     ⟨("b-proj".data), true, some (FileContent.parsed (Json.obj []))⟩]⟩

/-- Markup rendered for the ordering scenario: one item per project, in
ascending directory-name order a-proj, b-proj, c-proj. -/
def orderingMarkup : List Char :=
  ("<ul class=\"classified-projects\">\n  <li>\n    <a href=\"projects/a-proj/\">A Proj</a>\n  \n  </li>\n  <li>\n    <a href=\"projects/b-proj/\">B Proj</a>\n  \n  </li>\n  <li>\n    <a href=\"projects/c-proj/\">C Proj</a>\n  \n  </li>\n</ul>").data

/-- Project records of the ordering scenario, in sorted directory order. -/
def orderingProjects : List PyProject :=
  [⟨Json.str ("A Proj".data), Json.str ("projects/a-proj/".data), Json.null⟩,
   ⟨Json.str ("B Proj".data), Json.str ("projects/b-proj/".data), Json.null⟩,
   ⟨Json.str ("C Proj".data), Json.str ("projects/c-proj/".data), Json.null⟩]

set_option maxRecDepth 10000 in
/-- CLAIM C6: discovery returns one record per eligible directory in
lexicographically ascending directory-name order, rendering emits one list
item per record in that order, and on a root holding directories c-proj,
a-proj, b-proj the rendered items appear in the order a-proj, b-proj,
c-proj. -/
theorem ordering_render (fs : FS) (ps : List PyProject)
    (hroot : fs.rootExists = true)
    (h : discover_projects fs = DiscoverResult.ok ps) :
    ps = ((pySorted fs.entries).filterMap navEligible).map
      (fun x => mkPyProject fs.rootPath x.1 x.2) ∧
    List.Pairwise (fun a b => strLe a b = true)
      (((pySorted fs.entries).filterMap navEligible).map Prod.fst) ∧
    runMain orderingFS [] true = RunResult.printed orderingMarkup := by
  rw [discover_projects, if_pos hroot] at h
  refine ⟨discoverGo_ok_eq fs.rootPath _ ps h, ?_, rfl⟩
  have hp2 : List.Pairwise (fun a b => strLe a b = true)
      ((pySorted fs.entries).map DirEntry.name) :=
    (List.pairwise_map).2 (pairwise_pySorted fs.entries)
  exact List.Pairwise.sublist (eligible_names_sublist _) hp2

/-- Witness for ordering_render at the ordering scenario itself. -/
theorem ordering_render_witness :
    orderingProjects = ((pySorted orderingFS.entries).filterMap navEligible).map
      (fun x => mkPyProject orderingFS.rootPath x.1 x.2) ∧
    List.Pairwise (fun a b => strLe a b = true)
      (((pySorted orderingFS.entries).filterMap navEligible).map Prod.fst) ∧
    runMain orderingFS [] true = RunResult.printed orderingMarkup :=
  ordering_render orderingFS orderingProjects rfl rfl

/-- CLAIM C7: a malformed metadata file in an eligible directory makes the
whole run abort with the SystemExit diagnostic naming the offending file
path and parse error, with no project list produced and no document
written. -/
theorem malformed_fatal (fs : FS) (doc : List Char)
    (hroot : fs.rootExists = true)
    (hbad : ∃ e ∈ fs.entries, e.isDir = true ∧
      ∃ err, e.metadata = some (FileContent.malformed err))
    (hobj : ∀ e ∈ fs.entries, e.isDir = true →
      ∀ j, e.metadata = some (FileContent.parsed j) → ∃ fields, j = Json.obj fields) :
    ∃ dirName err,
      (∃ e ∈ fs.entries, e.name = dirName ∧ e.isDir = true ∧
        e.metadata = some (FileContent.malformed err)) ∧
      discover_projects fs =
        DiscoverResult.sysExit (invalidJsonMsg (metadataPath fs.rootPath dirName) err) ∧
      runMain fs doc false =
        RunResult.sysExit (invalidJsonMsg (metadataPath fs.rootPath dirName) err) ∧
      (∀ ps, discover_projects fs ≠ DiscoverResult.ok ps) ∧
      isWritten (runMain fs doc false) = false := by
  have hbad2 : ∃ e ∈ pySorted fs.entries, e.isDir = true ∧
      ∃ err, e.metadata = some (FileContent.malformed err) := by
    rcases hbad with ⟨e, he, hrest⟩
    exact ⟨e, (mem_pySorted _).2 he, hrest⟩
  have hobj2 : ∀ e ∈ pySorted fs.entries, e.isDir = true →
      ∀ j, e.metadata = some (FileContent.parsed j) → ∃ fields, j = Json.obj fields :=
    fun e he => hobj e ((mem_pySorted _).1 he)
  rcases discoverGo_malformed fs.rootPath _ hbad2 hobj2 with
    ⟨dirName, err, ⟨e3, he3, hname, hdir, hmeta⟩, hgo⟩
  have hdisc : discover_projects fs =
      DiscoverResult.sysExit (invalidJsonMsg (metadataPath fs.rootPath dirName) err) := by
    rw [discover_projects, if_pos hroot]
    exact hgo
  have hrun : runMain fs doc false =
      RunResult.sysExit (invalidJsonMsg (metadataPath fs.rootPath dirName) err) := by
    unfold runMain
    rw [hdisc]
  refine ⟨dirName, err, ⟨e3, (mem_pySorted _).1 he3, hname, hdir, hmeta⟩,
    hdisc, hrun, ?_, ?_⟩
  · intro ps hps
    rw [hdisc] at hps
    cases hps
  · rw [hrun]
    rfl

/-- Witness for malformed_fatal: one good directory and one directory whose
metadata fails to parse. -/
theorem malformed_fatal_witness :
    ∃ dirName err,
      (∃ e ∈ (⟨("projects".data), true,
          [⟨("good".data), true, some (FileContent.parsed (Json.obj []))⟩,
           ⟨("bad".data), true, some (FileContent.malformed ("oops".data))⟩]⟩ : FS).entries,
        e.name = dirName ∧ e.isDir = true ∧
        e.metadata = some (FileContent.malformed err)) ∧
      discover_projects ⟨("projects".data), true,
          [⟨("good".data), true, some (FileContent.parsed (Json.obj []))⟩,
           ⟨("bad".data), true, some (FileContent.malformed ("oops".data))⟩]⟩ =
        DiscoverResult.sysExit (invalidJsonMsg
          (metadataPath ("projects".data) dirName) err) ∧
      runMain ⟨("projects".data), true,
          [⟨("good".data), true, some (FileContent.parsed (Json.obj []))⟩,
           ⟨("bad".data), true, some (FileContent.malformed ("oops".data))⟩]⟩
          ("<html></html>".data) false =
        RunResult.sysExit (invalidJsonMsg
          (metadataPath ("projects".data) dirName) err) ∧
      (∀ ps, discover_projects ⟨("projects".data), true,
          [⟨("good".data), true, some (FileContent.parsed (Json.obj []))⟩,
           ⟨("bad".data), true, some (FileContent.malformed ("oops".data))⟩]⟩ ≠
        DiscoverResult.ok ps) ∧
      isWritten (runMain ⟨("projects".data), true,
          [⟨("good".data), true, some (FileContent.parsed (Json.obj []))⟩,
           ⟨("bad".data), true, some (FileContent.malformed ("oops".data))⟩]⟩
          ("<html></html>".data) false) = false :=
  malformed_fatal
    ⟨("projects".data), true,
      [⟨("good".data), true, some (FileContent.parsed (Json.obj []))⟩,
       ⟨("bad".data), true, some (FileContent.malformed ("oops".data))⟩]⟩
    ("<html></html>".data) rfl
    ⟨⟨("bad".data), true, some (FileContent.malformed ("oops".data))⟩,
      by simp, rfl, ("oops".data), rfl⟩
    (by
      intro e he hd j hm
      rcases List.mem_cons.1 he with h | h
      · subst h
        injection Option.some.inj hm with h2
        exact ⟨[], h2.symm⟩
      rcases List.mem_cons.1 h with h | h
      · subst h
        exact absurd (Option.some.inj hm) (by intro hc; cases hc)
      · cases h)

/-- CLAIM C8: when the marker pair is absent from the index document, the
regex search fails, splicing fails, and a non-dry run aborts with the
markers diagnostic and writes nothing. -/
theorem markers_fatal (fs : FS) (doc : List Char) (ps : List PyProject)
    (rps : List Project)
    (hok : discover_projects fs = DiscoverResult.ok ps)
    (hconv : projectsOf ps = some rps)
    (hnom : ¬ HasMarkerPair doc) :
    findMatch doc = none ∧
    update_homepage doc (build_navigation_markup rps) = none ∧
    runMain fs doc false = RunResult.sysExit markersMsg ∧
    isWritten (runMain fs doc false) = false := by
  have hfm : findMatch doc = none := by
    cases hx : findMatch doc with
    | none => rfl
    | some m => exact absurd ((findMatch_isSome_iff doc).1 ⟨m, hx⟩) hnom
  have hupd : update_homepage doc (build_navigation_markup rps) = none := by
    unfold update_homepage
    rw [hfm]
  have hrun : runMain fs doc false = RunResult.sysExit markersMsg := by
    unfold runMain
    rw [hok]
    dsimp only
    rw [hconv]
    dsimp only
    rw [if_neg (by simp)]
    rw [hupd]
  exact ⟨hfm, hupd, hrun, by rw [hrun]; rfl⟩

/-- Witness for markers_fatal: an empty projects root and a document with no
markers. -/
theorem markers_fatal_witness :
    findMatch ("<html></html>".data) = none ∧
    update_homepage ("<html></html>".data) (build_navigation_markup []) = none ∧
    runMain ⟨("projects".data), true, []⟩ ("<html></html>".data) false =
      RunResult.sysExit markersMsg ∧
    isWritten (runMain ⟨("projects".data), true, []⟩
      ("<html></html>".data) false) = false :=
  markers_fatal ⟨("projects".data), true, []⟩ ("<html></html>".data) [] []
    rfl rfl
    (fun hp => by
      rcases (findMatch_isSome_iff (("<html></html>").data)).2 hp with ⟨m, hm⟩
      rw [show findMatch (("<html></html>").data) = none from rfl] at hm
      cases hm)

/-- CLAIM C9: a missing projects root yields the empty project list, and the
rendered fragment is then the fixed no-projects paragraph rather than a
list. -/
theorem missing_root (fs : FS) (h : fs.rootExists = false) :
    discover_projects fs = DiscoverResult.ok [] ∧
    build_navigation_markup [] =
      ("<p>No classified projects are currently published. Add a project and rerun the updater.</p>".data) ∧
    hasSub ("<ul".data) (build_navigation_markup []) = false := by
  refine ⟨?_, by decide, by decide⟩
  rw [discover_projects, h]
  simp

/-- Witness for missing_root at a concrete absent root. -/
theorem missing_root_witness :
    discover_projects ⟨("projects".data), false, []⟩ = DiscoverResult.ok [] ∧
    build_navigation_markup [] =
      ("<p>No classified projects are currently published. Add a project and rerun the updater.</p>".data) ∧
    hasSub ("<ul".data) (build_navigation_markup []) = false :=
  missing_root ⟨("projects".data), false, []⟩ rfl

/-- CLAIM C10: metadata that parses to a non-object (here a JSON array)
raises the uncaught AttributeError of calling .get on a list, not the
Invalid-JSON SystemExit: the run dies with a Python traceback naming the
list type. -/
theorem nonobject_error :
    discover_projects ⟨("projects".data), true,
        [⟨("demo".data), true, some (FileContent.parsed (Json.arr []))⟩]⟩ =
      DiscoverResult.pyError ("list".data) ∧
    isSysExit (discover_projects ⟨("projects".data), true,
        [⟨("demo".data), true, some (FileContent.parsed (Json.arr []))⟩]⟩) = false :=
  ⟨rfl, rfl⟩

end UpdateHomepage
